import Mathlib

/-!
A max-heap priority queue (`pQueue.c`, `pQueue.h`).

Shallow embedding of the array-backed priority queue and proofs about it.

* `size_t` values are natural numbers; `w` is the width of `size_t` in bits
  (a parameter: the platform headers are not part of the sources).  The
  arithmetic that can leave the range of `size_t` without first leaving the
  storage is reduced modulo `2 ^ w`: the product `capacity * CAP_MULT_NUM` of
  `increase_capacity`, the sum `init_capacity + 1` of `pQueue_init`, and the
  byte counts `sizeof (struct pQueue_elem) * n` handed to `malloc` and
  `realloc`.  The indices `size + 1`, `parent << 1` and `(parent << 1) + 1` are
  at most twice the number of storage slots plus one when they are computed,
  and a storage of `2 ^ w / 2` slots of two words each does not fit in the
  address space, so they do not wrap.
* A queue state is a value of `pQueue` whose slots `1 .. size` lie inside the
  storage (`InStorage`); in any other value `size` counts slots that the
  storage does not have.
* The storage `heap` is the list of its slots, slot 0 first.  An access to a
  slot that the storage does not have is undefined behaviour in C; here it is
  the fault `Fault.outOfBounds`.  A failed `ASSERT` is the fault
  `Fault.assertion`.
* `malloc` and `realloc` are taken to succeed and to hand out exactly the
  requested number of bytes, that is `bytes / sizeof (struct pQueue_elem)`
  whole slots; slots that were never written hold an unspecified element,
  `default`.
* The `void *` payload is a type parameter `α`.
* The two loops carry an iteration budget so that they are structurally
  recursive; running out of it is the fault `Fault.diverged`.
-/

namespace PQueue

/-- Ways in which an operation can stop without a result. -/
inductive Fault where
  | assertion
  | outOfBounds
  | diverged
  deriving DecidableEq, Repr

/-- The element struct `struct pQueue_elem` of `pQueue.h`. -/
structure pQueue_elem (α : Type) where
  priority : Nat
  value : α
  deriving DecidableEq, Repr

instance {α : Type} [Inhabited α] : Inhabited (pQueue_elem α) := ⟨⟨0, default⟩⟩

/-- The queue struct `struct pQueue` of `pQueue.h`; `heap` lists the slots of
the allocated array. -/
structure pQueue (α : Type) where
  size : Nat
  capacity : Nat
  heap : List (pQueue_elem α)
  deriving DecidableEq, Repr

def CAP_MULT_NUM : Nat := 3

def CAP_MULT_DEN : Nat := 2

variable {α : Type}

/-- Read of `heap[i]`. -/
def load (heap : List (pQueue_elem α)) (i : Nat) : Except Fault (pQueue_elem α) :=
  match heap[i]? with
  | some e => .ok e
  | none => .error .outOfBounds

/-- Write `heap[i] = e`. -/
def store (heap : List (pQueue_elem α)) (i : Nat) (e : pQueue_elem α) :
    Except Fault (List (pQueue_elem α)) :=
  if i < heap.length then .ok (heap.set i e) else .error .outOfBounds

/-- The value of `sizeof (struct pQueue_elem)` in bytes: a `size_t` and a pointer,
one word of `w` bits each. -/
def sizeof_elem (w : Nat) : Nat :=
  2 * (w / 8)

/-- Number of whole slots in an allocation requested as
`sizeof (struct pQueue_elem) * n`, the product taken in `size_t`. -/
def alloc_slots (w n : Nat) : Nat :=
  (sizeof_elem w * n) % 2 ^ w / sizeof_elem w

/-- Result of `realloc` to a storage of `n` slots: the first `n` slots are
kept, further slots are fresh. -/
def realloc [Inhabited α] (heap : List (pQueue_elem α)) (n : Nat) : List (pQueue_elem α) :=
  heap.take n ++ List.replicate (n - heap.length) default

/-- `pQueue_init`: storage requested as
`sizeof (struct pQueue_elem) * (init_capacity + 1)` bytes, size 0. -/
def pQueue_init [Inhabited α] (w : Nat) (init_capacity : Nat) : pQueue α :=
  { size := 0
    capacity := init_capacity
    heap := List.replicate (alloc_slots w ((init_capacity + 1) % 2 ^ w)) default }

/-- `pQueue_empty`. -/
def pQueue_empty (pQ : pQueue α) : Bool :=
  pQ.size == 0

/-- The static function `swap`: exchanges two slots. -/
def swap (pQ : pQueue α) (index1 index2 : Nat) : Except Fault (pQueue α) :=
  match load pQ.heap index1 with
  | .error f => .error f
  | .ok temp =>
    match load pQ.heap index2 with
    | .error f => .error f
    | .ok x =>
      match store pQ.heap index1 x with
      | .error f => .error f
      | .ok h1 =>
        match store h1 index2 temp with
        | .error f => .error f
        | .ok h2 => .ok { pQ with heap := h2 }

/-- The `while (parent)` loop of `bubble_up`, entered with the current values
of `child` and `parent`. -/
def bubble_up_loop : Nat → pQueue α → Nat → Nat → Except Fault (pQueue α)
  | 0, _, _, _ => .error .diverged
  | fuel + 1, pQ, child, parent =>
    if parent ≠ 0 then
      match load pQ.heap child with
      | .error f => .error f
      | .ok c =>
        match load pQ.heap parent with
        | .error f => .error f
        | .ok p =>
          if c.priority > p.priority then
            match swap pQ child parent with
            | .error f => .error f
            | .ok pQ1 => bubble_up_loop fuel pQ1 parent (parent >>> 1)
          else .ok pQ
    else .ok pQ

/-- The static function `bubble_up`: starts at `child = size + 1`. -/
def bubble_up (pQ : pQueue α) : Except Fault (pQueue α) :=
  bubble_up_loop (pQ.size + 1) pQ (pQ.size + 1) ((pQ.size + 1) >>> 1)

/-- First conditional of the body of `bubble_down`: the value of `larger`
after the left child has been looked at. -/
def larger_left (pQ : pQueue α) (parent : Nat) : Except Fault Nat :=
  if parent <<< 1 ≤ pQ.size then
    match load pQ.heap parent with
    | .error f => .error f
    | .ok p =>
      match load pQ.heap (parent <<< 1) with
      | .error f => .error f
      | .ok l => if p.priority < l.priority then .ok (parent <<< 1) else .ok parent
  else .ok parent

/-- Second conditional of the body of `bubble_down`: the value of `larger`
after the right child has been looked at. -/
def larger_right (pQ : pQueue α) (parent larger : Nat) : Except Fault Nat :=
  if (parent <<< 1) + 1 ≤ pQ.size then
    match load pQ.heap larger with
    | .error f => .error f
    | .ok m =>
      match load pQ.heap ((parent <<< 1) + 1) with
      | .error f => .error f
      | .ok r => if m.priority < r.priority then .ok ((parent <<< 1) + 1) else .ok larger
  else .ok larger

/-- The `do ... while` loop of `bubble_down`, entered with the current value of
`larger`. -/
def bubble_down_loop : Nat → pQueue α → Nat → Except Fault (pQueue α)
  | 0, _, _ => .error .diverged
  | fuel + 1, pQ, larger =>
    let parent := larger
    match larger_left pQ parent with
    | .error f => .error f
    | .ok larger1 =>
      match larger_right pQ parent larger1 with
      | .error f => .error f
      | .ok larger2 =>
        match (if larger2 ≠ parent then swap pQ larger2 parent else .ok pQ) with
        | .error f => .error f
        | .ok pQ1 =>
          if parent ≤ pQ1.size ∧ larger2 ≠ parent then bubble_down_loop fuel pQ1 larger2
          else .ok pQ1

/-- The static function `bubble_down`: starts at `larger = 1`. -/
def bubble_down (pQ : pQueue α) : Except Fault (pQueue α) :=
  bubble_down_loop (pQ.size + 1) pQ 1

/-- The static function `increase_capacity`.  The last statement of the source
names the queue `pq`; it is read as `pQ`, the only queue in scope. -/
def increase_capacity [Inhabited α] (w : Nat) (pQ : pQueue α) : pQueue α :=
  let heap := realloc pQ.heap
    (alloc_slots w ((pQ.capacity * CAP_MULT_NUM) % 2 ^ w / CAP_MULT_DEN + 1))
  let capacity := (pQ.capacity * CAP_MULT_NUM) % 2 ^ w
  { pQ with heap := heap, capacity := capacity / CAP_MULT_DEN }

/-- `pQueue_push`. -/
def pQueue_push [Inhabited α] (w : Nat) (pQ : pQueue α) (priority : Nat) (val : α) :
    Except Fault (pQueue α) :=
  let pQ1 := if pQ.size = pQ.capacity then increase_capacity w pQ else pQ
  let i := pQ1.size + 1
  match store pQ1.heap i ⟨priority, val⟩ with
  | .error f => .error f
  | .ok h =>
    match bubble_up { pQ1 with heap := h } with
    | .error f => .error f
    | .ok pQ2 => .ok { pQ2 with size := pQ2.size + 1 }

/-- `pQueue_pop`: the popped element and the queue after the call. -/
def pQueue_pop (pQ : pQueue α) : Except Fault (pQueue_elem α × pQueue α) :=
  if pQueue_empty pQ then .error .assertion
  else
    match load pQ.heap 1 with
    | .error f => .error f
    | .ok return_val =>
      match swap pQ 1 pQ.size with
      | .error f => .error f
      | .ok pQ1 =>
        match bubble_down { pQ1 with size := pQ1.size - 1 } with
        | .error f => .error f
        | .ok pQ2 => .ok (return_val, pQ2)

/-- `pQueue_peek`. -/
def pQueue_peek (pQ : pQueue α) : Except Fault (pQueue_elem α) :=
  if pQueue_empty pQ then .error .assertion
  else load pQ.heap 1

/-! ### Vocabulary of the statements -/

/-- Priority stored in slot `i` (0 for a slot the storage does not have). -/
def prioAt (heap : List (pQueue_elem α)) (i : Nat) : Nat :=
  match heap[i]? with
  | some e => e.priority
  | none => 0

/-- The live elements: the contents of slots `1 .. size`, in slot order. -/
def live (pQ : pQueue α) : List (pQueue_elem α) :=
  (pQ.heap.drop 1).take pQ.size

/-- Slots `1 .. size` all lie inside the storage. -/
def InStorage (pQ : pQueue α) : Prop :=
  pQ.size < pQ.heap.length

instance (pQ : pQueue α) : Decidable (InStorage pQ) :=
  inferInstanceAs (Decidable (pQ.size < pQ.heap.length))

/-- The heap property: `priority[i] <= priority[i / 2]` for `2 <= i <= size`. -/
def HeapProperty (pQ : pQueue α) : Prop :=
  ∀ i, 2 ≤ i → i ≤ pQ.size → prioAt pQ.heap i ≤ prioAt pQ.heap (i / 2)

instance (pQ : pQueue α) : Decidable (HeapProperty pQ) :=
  decidable_of_iff (∀ i, i < pQ.size + 1 → 2 ≤ i → prioAt pQ.heap i ≤ prioAt pQ.heap (i / 2))
    ⟨fun h i h2 hs => h i (Nat.lt_succ_of_le hs) h2,
     fun h i hs h2 => h i h2 (Nat.le_of_lt_succ hs)⟩

/-- The queue on which `pQueue_push` stores the new element: the queue after
the growth step when `size == capacity`, the queue itself otherwise. -/
def grown [Inhabited α] (w : Nat) (pQ : pQueue α) : pQueue α :=
  if pQ.size = pQ.capacity then increase_capacity w pQ else pQ

/-- The queue that `pQueue_push` hands to `bubble_up`: after the growth step
(if any), with the new element written to the slot `size + 1`. -/
def pushed [Inhabited α] (w : Nat) (pQ : pQueue α) (priority : Nat) (val : α) : pQueue α :=
  { grown w pQ with
    heap := (grown w pQ).heap.set ((grown w pQ).size + 1) ⟨priority, val⟩ }

/-- `n` successive calls of `pQueue_pop`: the popped elements in the order of
the calls, and the queue after the last call. -/
def popN : Nat → pQueue α → Except Fault (List (pQueue_elem α) × pQueue α)
  | 0, pQ => .ok ([], pQ)
  | n + 1, pQ =>
    match pQueue_pop pQ with
    | .error f => .error f
    | .ok (e, pQ1) =>
      match popN n pQ1 with
      | .error f => .error f
      | .ok (es, pQ2) => .ok (e :: es, pQ2)

/-- One call of the interface: `pQueue_push (priority, val)` or `pQueue_pop`. -/
inductive Op (α : Type) where
  | push (priority : Nat) (val : α)
  | pop

/-- Runs a sequence of calls from left to right, starting on `pQ`; stops at
the first call that does not return. -/
def run [Inhabited α] (w : Nat) : pQueue α → List (Op α) → Except Fault (pQueue α)
  | pQ, [] => .ok pQ
  | pQ, Op.push priority val :: ops =>
    match pQueue_push w pQ priority val with
    | .error f => .error f
    | .ok pQ1 => run w pQ1 ops
  | pQ, Op.pop :: ops =>
    match pQueue_pop pQ with
    | .error f => .error f
    | .ok (_, pQ1) => run w pQ1 ops

/-- The element `e` with `f` applied to its value. -/
def mapElem {β : Type} (f : α → β) (e : pQueue_elem α) : pQueue_elem β :=
  ⟨e.priority, f e.value⟩

/-- The queue `pQ` with `f` applied to the value of every slot. -/
def mapQueue {β : Type} (f : α → β) (pQ : pQueue α) : pQueue β :=
  { size := pQ.size, capacity := pQ.capacity, heap := pQ.heap.map (mapElem f) }

/-- The call `op` with `f` applied to the pushed value. -/
def mapOp {β : Type} (f : α → β) : Op α → Op β
  | Op.push priority val => Op.push priority (f val)
  | Op.pop => Op.pop

/-- The unspecified content of a fresh slot in the run on the values `f v`:
the image of the content it has in the run on the values `v`. -/
def imageInhabited {β : Type} [Inhabited α] (f : α → β) : Inhabited β :=
  ⟨f default⟩

/-- Runs a sequence of calls like `run` and collects the elements returned by
its pops, in the order of the calls. -/
def runPops [Inhabited α] (w : Nat) :
    pQueue α → List (Op α) → Except Fault (List (pQueue_elem α) × pQueue α)
  | pQ, [] => .ok ([], pQ)
  | pQ, Op.push priority val :: ops =>
    match pQueue_push w pQ priority val with
    | .error f => .error f
    | .ok pQ1 => runPops w pQ1 ops
  | pQ, Op.pop :: ops =>
    match pQueue_pop pQ with
    | .error f => .error f
    | .ok (e, pQ1) =>
      match runPops w pQ1 ops with
      | .error f => .error f
      | .ok (es, pQ2) => .ok (e :: es, pQ2)

/-- The queues reached from `pQueue_init w c` by calls that return: pushes on
queues whose growth request, `sizeof (struct pQueue_elem) * (capacity * 3 / 2 + 1)`
bytes, fits in `size_t` (`w` bits), and pops.  A pop that returns was applied
to a non-empty queue. -/
inductive Reachable [Inhabited α] (w c : Nat) : pQueue α → Prop where
  | init : Reachable w c (pQueue_init w c)
  | push {pQ pQ1 : pQueue α} (priority : Nat) (val : α) :
      Reachable w c pQ → sizeof_elem w * (pQ.capacity * 3 / 2 + 1) < 2 ^ w →
      pQueue_push w pQ priority val = .ok pQ1 → Reachable w c pQ1
  | pop {pQ pQ1 : pQueue α} {e : pQueue_elem α} :
      Reachable w c pQ → pQueue_pop pQ = .ok (e, pQ1) → Reachable w c pQ1

/-- Invariant of the queues reached from an initial capacity of at least 2. -/
def Sound (pQ : pQueue α) : Prop :=
  pQ.size ≤ pQ.capacity ∧ pQ.heap.length = pQ.capacity + 1 ∧ 2 ≤ pQ.capacity

/-- The queue `pQ` with the content of the slot 0 replaced by `x`. -/
def setSlot0 (x : pQueue_elem α) (pQ : pQueue α) : pQueue α :=
  { pQ with heap := pQ.heap.set 0 x }

/-- The call `pQueue_peek (pQ)` as a step on the queue: the returned element and
the queue after the call.  The body of `pQueue_peek` assigns to no field of
`*pQ` and to no slot of `heap`, so the queue after the call is `pQ`. -/
def pQueue_peek_call (pQ : pQueue α) : Except Fault (pQueue_elem α × pQueue α) :=
  match pQueue_peek pQ with
  | .error f => .error f
  | .ok e => .ok (e, pQ)

/-- Three elements that do not satisfy the heap property. -/
def unsorted3 : pQueue Nat :=
  { size := 3, capacity := 4, heap := [⟨0, 0⟩, ⟨1, 1⟩, ⟨5, 2⟩, ⟨9, 3⟩, ⟨7, 4⟩] }

/-- An empty queue with a storage of three slots. -/
def empty2 : pQueue Nat :=
  { size := 0, capacity := 2, heap := [⟨0, 0⟩, ⟨0, 0⟩, ⟨0, 0⟩] }

/-- The three pushes of the scenario `push (5, a)`, `push (1, b)`,
`push (10, c)`. -/
def pushes3 : List (Op Char) :=
  [Op.push 5 'a', Op.push 1 'b', Op.push 10 'c']

/-- The queue after `pQueue_init 64 1` and one push: one element, capacity one,
storage of two slots. -/
def full1 : pQueue Nat :=
  { size := 1, capacity := 1, heap := [⟨0, 0⟩, ⟨5, 7⟩] }

/-- A queue holding three elements in a storage of five slots. -/
def sample3 : pQueue Nat :=
  { size := 3, capacity := 4, heap := [⟨0, 0⟩, ⟨10, 3⟩, ⟨1, 2⟩, ⟨5, 1⟩, ⟨0, 0⟩] }

/-- A full queue: two elements, capacity two, storage of three slots. -/
def full2 : pQueue Nat :=
  { size := 2, capacity := 2, heap := [⟨0, 0⟩, ⟨5, 1⟩, ⟨1, 2⟩] }

/-- The list obtained from `heap` by exchanging slots `i` and `j`. -/
def exch (heap : List (pQueue_elem α)) (i j : Nat) : List (pQueue_elem α) :=
  match heap[i]?, heap[j]? with
  | some a, some b => (heap.set i b).set j a
  | _, _ => heap

/-- Priorities after exchanging slots `a` and `b`. -/
def swapFn (p : Nat → Nat) (a b : Nat) : Nat → Nat :=
  fun k => if k = b then p a else if k = a then p b else p k

/-- Loop invariant of `bubble_up`: the heap property can only fail between
`c` and its parent, and the children of `c` are below the parent of `c`. -/
def UpInv (p : Nat → Nat) (n c : Nat) : Prop :=
  (∀ i, 2 ≤ i → i ≤ n → i ≠ c → p i ≤ p (i / 2)) ∧
  (∀ i, 2 ≤ i → i ≤ n → i / 2 = c → 2 ≤ c → p i ≤ p (c / 2))

/-- Loop invariant of `bubble_down`: the heap property can only fail between
`q` and its children, and the children of `q` are below the parent of `q`. -/
def DownInv (p : Nat → Nat) (n q : Nat) : Prop :=
  (∀ i, 2 ≤ i → i ≤ n → i / 2 ≠ q → p i ≤ p (i / 2)) ∧
  (∀ i, 2 ≤ i → i ≤ n → i / 2 = q → 2 ≤ q → p i ≤ p (q / 2))

/-! ### Arithmetic of the two loop invariants -/

theorem upInv_step {p : Nat → Nat} {n c : Nat} (h : UpInv p n c) (hc : c ≤ n)
    (hq : c / 2 ≠ 0) (hlt : p (c / 2) < p c) : UpInv (swapFn p c (c / 2)) n (c / 2) := by
  obtain ⟨h1, h2⟩ := h
  refine ⟨fun i hi hin hne => ?_, fun i hi hin hpar hq2 => ?_⟩
  · simp only [swapFn]
    by_cases e1 : i = c
    · subst e1; simp [hne]; omega
    · by_cases e2 : i / 2 = c
      · have := h2 i hi hin e2 (by omega)
        rw [if_neg hne, if_neg e1, e2]
        rw [if_neg (by omega), if_pos rfl]; exact this
      · have := h1 i hi hin e1
        rw [if_neg hne, if_neg e1, if_neg e2]
        by_cases e3 : i / 2 = c / 2
        · rw [if_pos e3]; rw [e3] at this; omega
        · rw [if_neg e3]; exact this
  · simp only [swapFn]
    have hq' := h1 (c / 2) hq2 (by omega) (by omega)
    rw [if_neg (show c / 2 / 2 ≠ c / 2 by omega), if_neg (show c / 2 / 2 ≠ c by omega)]
    by_cases e1 : i = c
    · subst e1; rw [if_neg (by omega), if_pos rfl]; exact hq'
    · have := h1 i hi hin e1
      rw [if_neg (by omega), if_neg e1]; rw [hpar] at this; omega

theorem upInv_done {p : Nat → Nat} {n c : Nat} (h : UpInv p n c)
    (hle : c / 2 = 0 ∨ p c ≤ p (c / 2)) : ∀ i, 2 ≤ i → i ≤ n → p i ≤ p (i / 2) := by
  intro i hi hin
  by_cases e : i = c
  · subst e; rcases hle with h0 | h0
    · omega
    · exact h0
  · exact h.1 i hi hin e

theorem downInv_step {p : Nat → Nat} {n q m : Nat} (h : DownInv p n q) (hq : 1 ≤ q)
    (hm : m / 2 = q) (hmn : m ≤ n) (hlt : p q < p m)
    (hmax : ∀ i, i ≤ n → i / 2 = q → p i ≤ p m) : DownInv (swapFn p m q) n m := by
  obtain ⟨h1, h2⟩ := h
  have hmq : m ≠ q := by omega
  refine ⟨fun i hi hin hne => ?_, fun i hi hin hpar hm2 => ?_⟩
  · simp only [swapFn]
    by_cases e1 : i = m
    · subst e1; rw [if_neg hmq, if_pos rfl, if_pos hm]; omega
    · by_cases e2 : i = q
      · subst e2
        have := h2 m (by omega) hmn hm hi
        rw [if_pos rfl, if_neg (by omega), if_neg (by omega)]; exact this
      · rw [if_neg e2, if_neg e1]
        by_cases e3 : i / 2 = q
        · rw [if_pos e3]; exact hmax i hin e3
        · rw [if_neg e3, if_neg hne]; exact h1 i hi hin e3
  · simp only [swapFn]
    have := h1 i hi hin (by omega)
    rw [if_neg (by omega), if_neg (by omega), if_pos hm, ← hpar]; exact this

theorem downInv_done {p : Nat → Nat} {n q : Nat} (h : DownInv p n q)
    (hle : ∀ i, i ≤ n → i / 2 = q → p i ≤ p q) : ∀ i, 2 ≤ i → i ≤ n → p i ≤ p (i / 2) := by
  intro i hi hin
  by_cases e : i / 2 = q
  · have := hle i hin e; rw [e]; exact this
  · exact h.1 i hi hin e

/-! ### Exchanging two slots -/

theorem cons_set_perm {β : Type} (t : List β) (j : Nat) (b x : β) (hb : t[j]? = some b) :
    List.Perm (b :: t.set j x) (x :: t) := by
  induction t generalizing j with
  | nil => simp at hb
  | cons y t ih =>
    cases j with
    | zero =>
      simp at hb
      subst hb
      simpa using List.Perm.swap x y t
    | succ j =>
      simp at hb
      have h1 : List.Perm (b :: y :: t.set j x) (y :: b :: t.set j x) := List.Perm.swap _ _ _
      have h2 : List.Perm (y :: b :: t.set j x) (y :: x :: t) := (ih j hb).cons y
      have h3 : List.Perm (y :: x :: t) (x :: y :: t) := List.Perm.swap _ _ _
      simpa using (h1.trans h2).trans h3

theorem set_set_perm_of {β : Type} (l : List β) (i j : Nat) (a b : β) (ha : l[i]? = some a)
    (hb : l[j]? = some b) : List.Perm ((l.set i b).set j a) l := by
  induction l generalizing i j with
  | nil => simp at ha
  | cons x t ih =>
    cases i with
    | zero =>
      cases j with
      | zero => simp at ha hb; subst ha; simp
      | succ j =>
        simp at ha hb; subst ha
        simpa using cons_set_perm t j b x hb
    | succ i =>
      cases j with
      | zero =>
        simp at ha hb; subst hb
        simpa using cons_set_perm t i a x ha
      | succ j =>
        simp at ha hb
        simpa using ih i j ha hb

theorem length_exch (h : List (pQueue_elem α)) (i j : Nat) : (exch h i j).length = h.length := by
  unfold exch
  split <;> simp

theorem getElem?_exch (h : List (pQueue_elem α)) {i j : Nat} (hi : i < h.length) (hj : j < h.length)
    (k : Nat) : (exch h i j)[k]? = if k = j then h[i]? else if k = i then h[j]? else h[k]? := by
  unfold exch
  rw [List.getElem?_eq_getElem hi, List.getElem?_eq_getElem hj]
  simp only [List.getElem?_set]
  by_cases e1 : k = j
  · subst e1; simp [hj]
  · by_cases e2 : k = i
    · subst e2; simp [e1, Ne.symm e1, hi]
    · simp [e1, e2, Ne.symm e1, Ne.symm e2]

theorem exch_window_perm (h : List (pQueue_elem α)) {i j n : Nat} (hi : 1 ≤ i) (hin : i ≤ n)
    (hj : 1 ≤ j) (hjn : j ≤ n) (hn : n < h.length) :
    List.Perm (((exch h i j).drop 1).take n) ((h.drop 1).take n) := by
  have hi' : i < h.length := by omega
  have hj' : j < h.length := by omega
  unfold exch
  rw [List.getElem?_eq_getElem hi', List.getElem?_eq_getElem hj']
  simp only [List.drop_set]
  rw [if_neg (by omega), if_neg (by omega), List.set_take, List.set_take]
  apply set_set_perm_of
  · rw [List.getElem?_take_of_lt (by omega), List.getElem?_drop, List.getElem?_eq_getElem (by omega)]
    congr 2; omega
  · rw [List.getElem?_take_of_lt (by omega), List.getElem?_drop, List.getElem?_eq_getElem (by omega)]
    congr 2; omega

theorem prioAt_exch (h : List (pQueue_elem α)) {i j : Nat} (hi : i < h.length)
    (hj : j < h.length) : prioAt (exch h i j) = swapFn (prioAt h) i j := by
  funext k
  simp only [prioAt, swapFn, getElem?_exch h hi hj k]
  by_cases e1 : k = j
  · simp [e1]
  · by_cases e2 : k = i
    · subst e2; simp [e1]
    · simp [e1, e2]

/-! ### Memory accesses inside the storage -/

theorem load_ok (h : List (pQueue_elem α)) {i : Nat} (hi : i < h.length) :
    load h i = .ok h[i] := by
  simp [load, List.getElem?_eq_getElem hi]

theorem prioAt_eq (h : List (pQueue_elem α)) {i : Nat} (hi : i < h.length) :
    prioAt h i = h[i].priority := by
  simp [prioAt, List.getElem?_eq_getElem hi]

theorem store_ok (h : List (pQueue_elem α)) {i : Nat} (hi : i < h.length) (e : pQueue_elem α) :
    store h i e = .ok (h.set i e) := by
  simp [store, hi]

theorem swap_ok (pQ : pQueue α) {i j : Nat} (hi : i < pQ.heap.length)
    (hj : j < pQ.heap.length) :
    swap pQ i j = .ok { pQ with heap := exch pQ.heap i j } := by
  simp [swap, load_ok _ hi, load_ok _ hj, store_ok _ hi, store_ok, hj, exch,
    List.getElem?_eq_getElem hi, List.getElem?_eq_getElem hj]

/-! ### The sift-up loop -/

theorem bubble_up_loop_spec (n : Nat) (fuel : Nat) (pQ : pQueue α) (c : Nat)
    (hc1 : 1 ≤ c) (hcn : c ≤ n) (hn : n < pQ.heap.length) (hf : c ≤ fuel) :
    ∃ pQ1, bubble_up_loop fuel pQ c (c >>> 1) = .ok pQ1 ∧ pQ1.size = pQ.size ∧
      pQ1.capacity = pQ.capacity ∧ pQ1.heap.length = pQ.heap.length ∧
      List.Perm ((pQ1.heap.drop 1).take n) ((pQ.heap.drop 1).take n) ∧
      (UpInv (prioAt pQ.heap) n c →
        ∀ i, 2 ≤ i → i ≤ n → prioAt pQ1.heap i ≤ prioAt pQ1.heap (i / 2)) := by
  induction fuel generalizing pQ c with
  | zero => omega
  | succ fuel ih =>
    have hc : c < pQ.heap.length := by omega
    have hp : c / 2 < pQ.heap.length := by omega
    rw [Nat.shiftRight_one]
    by_cases h0 : c / 2 = 0
    · refine ⟨pQ, ?_, rfl, rfl, rfl, List.Perm.refl _, fun hinv => upInv_done hinv (Or.inl h0)⟩
      simp [bubble_up_loop, h0]
    · by_cases hgt : pQ.heap[c].priority > pQ.heap[c / 2].priority
      · have hlen : ({ pQ with heap := exch pQ.heap c (c / 2) } : pQueue α).heap.length
            = pQ.heap.length := length_exch _ _ _
        obtain ⟨pQ1, hrun, hs, hcap, hl, hperm, hheap⟩ :=
          ih { pQ with heap := exch pQ.heap c (c / 2) } (c / 2) (by omega) (by omega)
            (by rw [hlen]; exact hn) (by omega)
        refine ⟨pQ1, ?_, hs, hcap, hl.trans hlen, ?_, fun hinv => hheap ?_⟩
        · rw [Nat.shiftRight_one] at hrun
          simp [bubble_up_loop, h0, load_ok _ hc, load_ok _ hp, hgt, swap_ok _ hc hp,
            Nat.shiftRight_one, hrun]
        · exact hperm.trans (exch_window_perm pQ.heap hc1 hcn (by omega) (by omega) hn)
        · show UpInv (prioAt (exch pQ.heap c (c / 2))) n (c / 2)
          rw [prioAt_exch _ hc hp]
          refine upInv_step hinv hcn h0 ?_
          rw [prioAt_eq _ hc, prioAt_eq _ hp]; exact hgt
      · refine ⟨pQ, ?_, rfl, rfl, rfl, List.Perm.refl _, fun hinv => upInv_done hinv (Or.inr ?_)⟩
        · simp [bubble_up_loop, h0, load_ok _ hc, load_ok _ hp, hgt]
        · rw [prioAt_eq _ hc, prioAt_eq _ hp]; omega

/-! ### The sift-down loop -/

theorem larger_spec (pQ : pQueue α) (q : Nat) (hq : 1 ≤ q) (hn : pQ.size < pQ.heap.length) :
    ∃ m1 m, larger_left pQ q = .ok m1 ∧ larger_right pQ q m1 = .ok m ∧
      ((m = q ∧ ∀ i, i ≤ pQ.size → i / 2 = q → prioAt pQ.heap i ≤ prioAt pQ.heap q) ∨
       (m ≠ q ∧ m / 2 = q ∧ m ≤ pQ.size ∧ prioAt pQ.heap q < prioAt pQ.heap m ∧
          ∀ i, i ≤ pQ.size → i / 2 = q → prioAt pQ.heap i ≤ prioAt pQ.heap m)) := by
  have hsl : q <<< 1 = 2 * q := by rw [Nat.shiftLeft_eq]; omega
  have kids : ∀ i, i / 2 = q → i = 2 * q ∨ i = 2 * q + 1 := fun i hi => by omega
  by_cases hl : 2 * q ≤ pQ.size
  · have bq : q < pQ.heap.length := by omega
    have bl : 2 * q < pQ.heap.length := by omega
    by_cases hpl : pQ.heap[q].priority < pQ.heap[2 * q].priority
    · have e1 : larger_left pQ q = .ok (2 * q) := by
        simp [larger_left, hsl, hl, load_ok _ bq, load_ok _ bl, hpl]
      by_cases hr : 2 * q + 1 ≤ pQ.size
      · have br : 2 * q + 1 < pQ.heap.length := by omega
        by_cases hpr : pQ.heap[2 * q].priority < pQ.heap[2 * q + 1].priority
        · refine ⟨2 * q, 2 * q + 1, e1, ?_, Or.inr ⟨by omega, by omega, hr, ?_, ?_⟩⟩
          · simp [larger_right, hsl, hr, load_ok _ bl, load_ok _ br, hpr]
          · rw [prioAt_eq _ bq, prioAt_eq _ br]; omega
          · intro i _ hi
            rcases kids i hi with rfl | rfl
            · rw [prioAt_eq _ bl, prioAt_eq _ br]; omega
            · exact Nat.le_refl _
        · refine ⟨2 * q, 2 * q, e1, ?_, Or.inr ⟨by omega, by omega, hl, ?_, ?_⟩⟩
          · simp [larger_right, hsl, hr, load_ok _ bl, load_ok _ br, hpr]
          · rw [prioAt_eq _ bq, prioAt_eq _ bl]; omega
          · intro i _ hi
            rcases kids i hi with rfl | rfl
            · exact Nat.le_refl _
            · rw [prioAt_eq _ bl, prioAt_eq _ br]; omega
      · refine ⟨2 * q, 2 * q, e1, ?_, Or.inr ⟨by omega, by omega, hl, ?_, ?_⟩⟩
        · simp [larger_right, hsl, hr]
        · rw [prioAt_eq _ bq, prioAt_eq _ bl]; omega
        · intro i hin hi
          rcases kids i hi with rfl | rfl
          · exact Nat.le_refl _
          · omega
    · have e1 : larger_left pQ q = .ok q := by
        simp [larger_left, hsl, hl, load_ok _ bq, load_ok _ bl, hpl]
      by_cases hr : 2 * q + 1 ≤ pQ.size
      · have br : 2 * q + 1 < pQ.heap.length := by omega
        by_cases hpr : pQ.heap[q].priority < pQ.heap[2 * q + 1].priority
        · refine ⟨q, 2 * q + 1, e1, ?_, Or.inr ⟨by omega, by omega, hr, ?_, ?_⟩⟩
          · simp [larger_right, hsl, hr, load_ok _ bq, load_ok _ br, hpr]
          · rw [prioAt_eq _ bq, prioAt_eq _ br]; omega
          · intro i _ hi
            rcases kids i hi with rfl | rfl
            · rw [prioAt_eq _ bl, prioAt_eq _ br]; omega
            · exact Nat.le_refl _
        · refine ⟨q, q, e1, ?_, Or.inl ⟨rfl, ?_⟩⟩
          · simp [larger_right, hsl, hr, load_ok _ bq, load_ok _ br, hpr]
          · intro i _ hi
            rcases kids i hi with rfl | rfl
            · rw [prioAt_eq _ bq, prioAt_eq _ bl]; omega
            · rw [prioAt_eq _ bq, prioAt_eq _ br]; omega
      · refine ⟨q, q, e1, ?_, Or.inl ⟨rfl, ?_⟩⟩
        · simp [larger_right, hsl, hr]
        · intro i hin hi
          rcases kids i hi with rfl | rfl
          · rw [prioAt_eq _ bq, prioAt_eq _ bl]; omega
          · omega
  · refine ⟨q, q, ?_, ?_, Or.inl ⟨rfl, ?_⟩⟩
    · simp [larger_left, hsl, hl]
    · have : ¬ (2 * q + 1 ≤ pQ.size) := by omega
      simp [larger_right, hsl, this]
    · intro i hin hi
      rcases kids i hi with rfl | rfl <;> omega

theorem bubble_down_loop_spec (fuel : Nat) (pQ : pQueue α) (q : Nat) (hq : 1 ≤ q)
    (hqn : q ≤ pQ.size + 1) (hn : pQ.size < pQ.heap.length) (hf : pQ.size + 2 ≤ fuel + q) :
    ∃ pQ1, bubble_down_loop fuel pQ q = .ok pQ1 ∧ pQ1.size = pQ.size ∧
      pQ1.capacity = pQ.capacity ∧ pQ1.heap.length = pQ.heap.length ∧
      List.Perm ((pQ1.heap.drop 1).take pQ.size) ((pQ.heap.drop 1).take pQ.size) ∧
      (DownInv (prioAt pQ.heap) pQ.size q → HeapProperty pQ1) := by
  induction fuel generalizing pQ q with
  | zero => omega
  | succ fuel ih =>
    obtain ⟨m1, m, e1, e2, hm⟩ := larger_spec pQ q hq hn
    rcases hm with ⟨rfl, hmax⟩ | ⟨hne, hpar, hmn, hlt, hmax⟩
    · refine ⟨pQ, ?_, rfl, rfl, rfl, List.Perm.refl _, fun hinv => downInv_done hinv hmax⟩
      simp [bubble_down_loop, e1, e2]
    · have bm : m < pQ.heap.length := by omega
      have bq : q < pQ.heap.length := by omega
      have hlen : ({ pQ with heap := exch pQ.heap m q } : pQueue α).heap.length
          = pQ.heap.length := length_exch _ _ _
      obtain ⟨pQ1, hrun, hs, hcap, hl, hperm, hheap⟩ :=
        ih { pQ with heap := exch pQ.heap m q } m (by omega) (by show m ≤ pQ.size + 1; omega)
          (by rw [hlen]; exact hn) (by show pQ.size + 2 ≤ fuel + m; omega)
      refine ⟨pQ1, ?_, hs, hcap, hl.trans hlen, ?_, fun hinv => hheap ?_⟩
      · have hqs : q ≤ pQ.size := by omega
        simp [bubble_down_loop, e1, e2, hne, swap_ok _ bm bq, hqs, hrun]
      · have hw : List.Perm (((exch pQ.heap m q).drop 1).take pQ.size)
            ((pQ.heap.drop 1).take pQ.size) :=
          exch_window_perm pQ.heap (by omega) hmn hq (by omega) hn
        exact hperm.trans hw
      · show DownInv (prioAt (exch pQ.heap m q)) pQ.size m
        rw [prioAt_exch _ bm bq]
        exact downInv_step hinv hq hpar hmn hlt hmax

/-! ### `pQueue_pop` -/

theorem take_succ_drop_one (h : List (pQueue_elem α)) (k : Nat) (e : pQueue_elem α)
    (he : h[k + 1]? = some e) :
    (h.drop 1).take (k + 1) = (h.drop 1).take k ++ [e] := by
  rw [List.take_succ, List.getElem?_drop, Nat.add_comm 1 k, he]
  rfl

theorem pop_spec (pQ : pQueue α) (h0 : pQ.size ≠ 0) (hn : InStorage pQ) :
    ∃ e pQ1, pQueue_pop pQ = .ok (e, pQ1) ∧ pQ.heap[1]? = some e ∧
      pQ1.size = pQ.size - 1 ∧ pQ1.capacity = pQ.capacity ∧
      pQ1.heap.length = pQ.heap.length ∧
      List.Perm (live pQ) (e :: live pQ1) ∧ (HeapProperty pQ → HeapProperty pQ1) := by
  unfold InStorage at hn
  obtain ⟨k, hk⟩ : ∃ k, pQ.size = k + 1 := ⟨pQ.size - 1, by omega⟩
  have b1 : 1 < pQ.heap.length := by omega
  have hlen : (exch pQ.heap 1 pQ.size).length = pQ.heap.length := length_exch _ _ _
  obtain ⟨pQ1, hrun, hs, hcap, hl, hperm, hheap⟩ :=
    bubble_down_loop_spec (k + 1) { pQ with heap := exch pQ.heap 1 pQ.size, size := k } 1
      (Nat.le_refl 1) (by show 1 ≤ k + 1; omega) (by show k < (exch pQ.heap 1 pQ.size).length; omega)
      (by show k + 2 ≤ k + 1 + 1; omega)
  refine ⟨pQ.heap[1], pQ1, ?_, List.getElem?_eq_getElem b1, by rw [hs, hk]; rfl, hcap,
    hl.trans hlen, ?_, fun hp => hheap ?_⟩
  · have hne : ¬ (pQ.size = 0) := h0
    have hk1 : pQ.size - 1 = k := by omega
    simp only [pQueue_pop, pQueue_empty, beq_iff_eq, hne, if_false, load_ok _ b1, swap_ok _ b1 hn,
      bubble_down, hk1]
    have hrun1 : bubble_down_loop (k + 1)
        { size := k, capacity := pQ.capacity, heap := exch pQ.heap 1 pQ.size } 1 = .ok pQ1 := hrun
    simp [hrun1]
  · have hw : List.Perm (((exch pQ.heap 1 pQ.size).drop 1).take (k + 1))
        ((pQ.heap.drop 1).take (k + 1)) :=
      exch_window_perm pQ.heap (Nat.le_refl 1) (by omega) (by omega) (by omega) (by omega)
    have hlast : (exch pQ.heap 1 pQ.size)[k + 1]? = some pQ.heap[1] := by
      rw [getElem?_exch _ b1 hn, if_pos hk.symm, List.getElem?_eq_getElem b1]
    rw [take_succ_drop_one _ k _ hlast] at hw
    have hperm1 : List.Perm ((pQ1.heap.drop 1).take k)
        (((exch pQ.heap 1 pQ.size).drop 1).take k) := hperm
    have hl1 : live pQ1 = (pQ1.heap.drop 1).take k := by rw [live, hs]
    have hl0 : live pQ = (pQ.heap.drop 1).take (k + 1) := by rw [live, hk]
    rw [hl1, hl0]
    refine hw.symm.trans ?_
    refine List.perm_append_comm.trans ?_
    exact (hperm1.symm).cons _
  · show DownInv (prioAt (exch pQ.heap 1 pQ.size)) k 1
    rw [prioAt_exch _ b1 hn]
    refine ⟨fun i hi hin hne => ?_, fun i hi hin hpar h2 => by omega⟩
    have := hp i hi (by omega)
    simp only [swapFn]
    rw [if_neg (by omega), if_neg (by omega), if_neg (by omega), if_neg (by omega)]
    exact this

/-! ### `pQueue_push` -/

theorem length_realloc [Inhabited α] (h : List (pQueue_elem α)) (n : Nat) :
    (realloc h n).length = n := by
  simp [realloc]; omega

theorem getElem?_realloc [Inhabited α] (h : List (pQueue_elem α)) {n k : Nat} (hk : k < n)
    (hkl : k < h.length) : (realloc h n)[k]? = h[k]? := by
  unfold realloc
  rw [List.getElem?_append_left (by simp; omega), List.getElem?_take_of_lt hk]

theorem grown_size [Inhabited α] (w : Nat) (pQ : pQueue α) : (grown w pQ).size = pQ.size := by
  unfold grown
  split <;> rfl

theorem grown_getElem? [Inhabited α] (w : Nat) (pQ : pQueue α) {k : Nat}
    (hk : k < (grown w pQ).heap.length) (hkl : k < pQ.heap.length) :
    (grown w pQ).heap[k]? = pQ.heap[k]? := by
  unfold grown at hk ⊢
  split
  · rename_i hfull
    rw [if_pos hfull] at hk
    simp only [increase_capacity] at hk ⊢
    rw [length_realloc] at hk
    exact getElem?_realloc _ hk hkl
  · rfl

theorem push_grown [Inhabited α] (w : Nat) (pQ : pQueue α) (priority : Nat) (val : α) :
    pQueue_push w pQ priority val =
      match store (grown w pQ).heap ((grown w pQ).size + 1) ⟨priority, val⟩ with
      | Except.error f => Except.error f
      | Except.ok h =>
        match bubble_up { grown w pQ with heap := h } with
        | Except.error f => Except.error f
        | Except.ok pQ2 => Except.ok { pQ2 with size := pQ2.size + 1 } := rfl

theorem push_spec [Inhabited α] (w : Nat) (pQ : pQueue α) (priority : Nat) (val : α)
    (hroom : (grown w pQ).size + 1 < (grown w pQ).heap.length) :
    ∃ pQ1, pQueue_push w pQ priority val = .ok pQ1 ∧ pQ1.size = pQ.size + 1 ∧
      pQ1.capacity = (grown w pQ).capacity ∧ pQ1.heap.length = (grown w pQ).heap.length ∧
      (InStorage pQ → List.Perm (live pQ1) (⟨priority, val⟩ :: live pQ)) ∧
      (InStorage pQ → HeapProperty pQ → HeapProperty pQ1) := by
  have hgs := grown_size w pQ
  rw [hgs] at hroom
  have hst := store_ok (grown w pQ).heap hroom ⟨priority, val⟩
  have hlen1 : ((grown w pQ).heap.set (pQ.size + 1) ⟨priority, val⟩).length
      = (grown w pQ).heap.length := List.length_set _ _ _
  obtain ⟨pQ1, hrun, hs, hcap, hl, hperm, hheap⟩ :=
    bubble_up_loop_spec (pQ.size + 1) (pQ.size + 1)
      { grown w pQ with heap := (grown w pQ).heap.set (pQ.size + 1) ⟨priority, val⟩ }
      (pQ.size + 1) (by omega) (Nat.le_refl _)
      (by show pQ.size + 1 < ((grown w pQ).heap.set (pQ.size + 1) ⟨priority, val⟩).length
          rw [hlen1]; exact hroom)
      (Nat.le_refl _)
  have hs1 : pQ1.size = pQ.size := hs.trans hgs
  refine ⟨{ pQ1 with size := pQ1.size + 1 }, ?_, by show pQ1.size + 1 = pQ.size + 1; rw [hs1],
    hcap, hl.trans hlen1, fun hn => ?_, fun hn hp => ?_⟩
  · have hrun1 : bubble_up_loop (pQ.size + 1)
        { size := (grown w pQ).size, capacity := (grown w pQ).capacity,
          heap := (grown w pQ).heap.set (pQ.size + 1) ⟨priority, val⟩ }
        (pQ.size + 1) ((pQ.size + 1) >>> 1) = .ok pQ1 := hrun
    rw [hgs] at hrun1
    rw [push_grown, hgs, hst]
    simp only [bubble_up, hgs, hrun1]
  · unfold InStorage at hn
    show List.Perm ((pQ1.heap.drop 1).take (pQ1.size + 1)) _
    rw [hs1]
    refine hperm.trans ?_
    show List.Perm
      ((((grown w pQ).heap.set (pQ.size + 1) ⟨priority, val⟩).drop 1).take (pQ.size + 1)) _
    rw [take_succ_drop_one _ pQ.size ⟨priority, val⟩ (List.getElem?_set_self hroom)]
    refine List.perm_append_comm.trans ?_
    refine List.Perm.cons _ ?_
    have : (((grown w pQ).heap.set (pQ.size + 1) ⟨priority, val⟩).drop 1).take pQ.size
        = live pQ := by
      apply List.ext_getElem?
      intro k
      simp only [live, List.getElem?_take, List.getElem?_drop]
      split
      · rw [List.getElem?_set_ne (by omega), grown_getElem? w pQ (by omega) (by omega)]
      · rfl
    rw [this]
    exact List.Perm.refl _
  · unfold InStorage at hn
    show ∀ i, 2 ≤ i → i ≤ pQ1.size + 1 → prioAt pQ1.heap i ≤ prioAt pQ1.heap (i / 2)
    rw [hs1]
    refine hheap ⟨fun i hi hin hne => ?_, fun i hi hin hpar _ => by omega⟩
    show prioAt ((grown w pQ).heap.set (pQ.size + 1) ⟨priority, val⟩) i
      ≤ prioAt ((grown w pQ).heap.set (pQ.size + 1) ⟨priority, val⟩) (i / 2)
    have := hp i hi (by omega)
    unfold prioAt at this ⊢
    rw [List.getElem?_set_ne (by omega), List.getElem?_set_ne (by omega),
      grown_getElem? w pQ (by omega) (by omega), grown_getElem? w pQ (by omega) (by omega)]
    exact this

/-! ### The root of a heap, and emptying a queue -/

theorem root_max (pQ : pQueue α) (hp : HeapProperty pQ) :
    ∀ i, 1 ≤ i → i ≤ pQ.size → prioAt pQ.heap i ≤ prioAt pQ.heap 1 := by
  intro i
  induction i using Nat.strong_induction_on with
  | _ i ih =>
    intro h1 hi
    by_cases e : i = 1
    · rw [e]
    · exact Nat.le_trans (hp i (by omega) hi) (ih (i / 2) (by omega) (by omega) (by omega))

theorem mem_live (pQ : pQueue α) (x : pQueue_elem α) (hx : x ∈ live pQ) :
    ∃ i, 1 ≤ i ∧ i ≤ pQ.size ∧ pQ.heap[i]? = some x := by
  obtain ⟨k, hk⟩ := List.mem_iff_getElem?.mp hx
  simp only [live, List.getElem?_take, List.getElem?_drop] at hk
  split at hk
  · exact ⟨1 + k, by omega, by omega, hk⟩
  · simp at hk

theorem live_le_root (pQ : pQueue α) (hp : HeapProperty pQ) (e x : pQueue_elem α)
    (he : pQ.heap[1]? = some e) (hx : x ∈ live pQ) : x.priority ≤ e.priority := by
  obtain ⟨i, h1, hi, hxi⟩ := mem_live pQ x hx
  have := root_max pQ hp i h1 hi
  simpa [prioAt, hxi, he] using this

theorem popN_spec (n : Nat) (pQ : pQueue α) (hs : pQ.size = n) (hn : InStorage pQ) :
    ∃ es pQ1, popN n pQ = .ok (es, pQ1) ∧ pQ1.size = 0 ∧ es.length = n ∧
      List.Perm es (live pQ) ∧
      (HeapProperty pQ → List.Pairwise (fun a b => b.priority ≤ a.priority) es) := by
  induction n generalizing pQ with
  | zero =>
    refine ⟨[], pQ, rfl, hs, rfl, ?_, fun _ => List.Pairwise.nil⟩
    simp [live, hs]
  | succ n ih =>
    obtain ⟨e, pQ1, hpop, he, hs1, -, hl1, hperm1, hheap1⟩ := pop_spec pQ (by omega) hn
    have hn1 : InStorage pQ1 := by
      unfold InStorage at hn ⊢
      omega
    obtain ⟨es, pQ2, hrun, hs2, hlen, hperm2, hsorted⟩ := ih pQ1 (by omega) hn1
    refine ⟨e :: es, pQ2, ?_, hs2, by simp [hlen], ?_, fun hp => ?_⟩
    · simp [popN, hpop, hrun]
    · exact ((hperm2.cons e).trans hperm1.symm)
    · refine List.Pairwise.cons (fun x hx => ?_) (hsorted (hheap1 hp))
      refine live_le_root pQ hp e x he ?_
      exact hperm1.symm.subset (List.mem_cons_of_mem _ (hperm2.subset hx))

/-! ### The contract of `pQueue_peek`, `pQueue_pop` and `pQueue_push` -/

/-- Claim C1: on a non-empty queue whose slots `1 .. size` lie in the storage
and satisfy the heap property, `pQueue_peek` returns an element whose priority
is at least the priority of every element stored at the indices `1 .. size`. -/
theorem peek_is_max (pQ : pQueue α) (h0 : pQ.size ≠ 0) (hn : InStorage pQ)
    (hp : HeapProperty pQ) :
    ∃ e, pQueue_peek pQ = .ok e ∧
      ∀ i x, 1 ≤ i → i ≤ pQ.size → pQ.heap[i]? = some x → x.priority ≤ e.priority := by
  have b1 : 1 < pQ.heap.length := by unfold InStorage at hn; omega
  refine ⟨pQ.heap[1], ?_, fun i x h1 hi hx => ?_⟩
  · simp [pQueue_peek, pQueue_empty, h0, load_ok _ b1]
  · have := root_max pQ hp i h1 hi
    simpa [prioAt, hx, List.getElem?_eq_getElem b1] using this

theorem peek_is_max_witness :
    sample3.size ≠ 0 ∧ InStorage sample3 ∧ HeapProperty sample3 ∧
      pQueue_peek sample3 = .ok ⟨10, 3⟩ ∧
      ∃ e, pQueue_peek sample3 = .ok e ∧
        ∀ i x, 1 ≤ i → i ≤ sample3.size → sample3.heap[i]? = some x →
          x.priority ≤ e.priority :=
  ⟨by decide, by decide, by decide, rfl,
    peek_is_max sample3 (by decide) (by decide) (by decide)⟩

/-- Claim C2: on a queue of size `n` whose slots `1 .. n` lie in the storage
and satisfy the heap property, `n` successive calls of `pQueue_pop` all return,
leave the queue empty, and the priorities of the returned elements are
non-increasing in the order of the calls. -/
theorem pop_all_sorted (pQ : pQueue α) (hn : InStorage pQ) (hp : HeapProperty pQ) :
    ∃ es pQ1, popN pQ.size pQ = .ok (es, pQ1) ∧ es.length = pQ.size ∧
      pQ1.size = 0 ∧ pQueue_empty pQ1 = true ∧
      List.Sorted (fun a b => a ≥ b) (es.map pQueue_elem.priority) := by
  obtain ⟨es, pQ1, hrun, hs, hlen, -, hsorted⟩ := popN_spec pQ.size pQ rfl hn
  refine ⟨es, pQ1, hrun, hlen, hs, by simp [pQueue_empty, hs], ?_⟩
  exact List.pairwise_map.mpr (hsorted hp)

theorem pop_all_sorted_witness :
    InStorage sample3 ∧ HeapProperty sample3 ∧
      (popN sample3.size sample3).map Prod.fst = .ok [⟨10, 3⟩, ⟨5, 1⟩, ⟨1, 2⟩] ∧
      ∃ es pQ1, popN sample3.size sample3 = .ok (es, pQ1) ∧ es.length = sample3.size ∧
        pQ1.size = 0 ∧ pQueue_empty pQ1 = true ∧
        List.Sorted (fun a b => a ≥ b) (es.map pQueue_elem.priority) :=
  ⟨by decide, by decide, rfl, pop_all_sorted sample3 (by decide) (by decide)⟩

/-- Claim C3: on a non-empty queue whose slots `1 .. size` lie in the storage,
`pQueue_pop` returns an element `e` such that the multiset of pairs in the
slots `1 .. size` before the call is `e` added to the multiset of pairs in the
slots `1 .. size - 1` after the call; and popping `size` times returns exactly
the multiset of the live pairs. -/
theorem pop_multiset (pQ : pQueue α) (h0 : pQ.size ≠ 0) (hn : InStorage pQ) :
    (∃ e pQ1, pQueue_pop pQ = .ok (e, pQ1) ∧ pQ1.size = pQ.size - 1 ∧
      (↑(live pQ) : Multiset (pQueue_elem α)) = e ::ₘ ↑(live pQ1)) ∧
    (∃ es pQ2, popN pQ.size pQ = .ok (es, pQ2) ∧ pQ2.size = 0 ∧
      (↑es : Multiset (pQueue_elem α)) = ↑(live pQ)) := by
  constructor
  · obtain ⟨e, pQ1, hpop, -, hs, -, -, hperm, -⟩ := pop_spec pQ h0 hn
    refine ⟨e, pQ1, hpop, hs, ?_⟩
    rw [Multiset.cons_coe, Multiset.coe_eq_coe]
    exact hperm
  · obtain ⟨es, pQ2, hrun, hs, -, hperm, -⟩ := popN_spec pQ.size pQ rfl hn
    exact ⟨es, pQ2, hrun, hs, Multiset.coe_eq_coe.mpr hperm⟩

theorem pop_multiset_witness :
    sample3.size ≠ 0 ∧ InStorage sample3 ∧
    ((∃ e pQ1, pQueue_pop sample3 = .ok (e, pQ1) ∧ pQ1.size = sample3.size - 1 ∧
      (↑(live sample3) : Multiset (pQueue_elem Nat)) = e ::ₘ ↑(live pQ1)) ∧
    (∃ es pQ2, popN sample3.size sample3 = .ok (es, pQ2) ∧ pQ2.size = 0 ∧
      (↑es : Multiset (pQueue_elem Nat)) = ↑(live sample3))) :=
  ⟨by decide, by decide, pop_multiset sample3 (by decide) (by decide)⟩

/-- Claim C4: on a queue whose slots `1 .. size` lie in the storage and whose
slot `size + 1` lies in the storage after the growth step (if any),
`pQueue_push` makes the multiset of pairs in the slots `1 .. size + 1` the
multiset previously in the slots `1 .. size` plus the one pushed pair. -/
theorem push_multiset [Inhabited α] (w : Nat) (pQ : pQueue α) (priority : Nat) (val : α)
    (hn : InStorage pQ) (hroom : (grown w pQ).size + 1 < (grown w pQ).heap.length) :
    ∃ pQ1, pQueue_push w pQ priority val = .ok pQ1 ∧ pQ1.size = pQ.size + 1 ∧
      (↑(live pQ1) : Multiset (pQueue_elem α)) = ⟨priority, val⟩ ::ₘ ↑(live pQ) := by
  obtain ⟨pQ1, hpush, hs, -, -, hperm, -⟩ := push_spec w pQ priority val hroom
  refine ⟨pQ1, hpush, hs, ?_⟩
  rw [Multiset.cons_coe, Multiset.coe_eq_coe]
  exact hperm hn

theorem push_multiset_witness :
    InStorage full2 ∧ (grown 64 full2).size + 1 < (grown 64 full2).heap.length ∧
      ∃ pQ1, pQueue_push 64 full2 10 3 = .ok pQ1 ∧ pQ1.size = full2.size + 1 ∧
        (↑(live pQ1) : Multiset (pQueue_elem Nat)) = ⟨10, 3⟩ ::ₘ ↑(live full2) :=
  ⟨by decide, by decide, push_multiset 64 full2 10 3 (by decide) (by decide)⟩

/-- Claim C5: `pQueue_push` preserves the heap property: if the slots
`1 .. size` lie in the storage and satisfy `priority[i] <= priority[i / 2]` for
`2 <= i <= size`, and the slot `size + 1` lies in the storage after the growth
step (if any), then the call returns a queue of size `size + 1` satisfying
`priority[i] <= priority[i / 2]` for `2 <= i <= size + 1`. -/
theorem push_preserves_heap [Inhabited α] (w : Nat) (pQ : pQueue α) (priority : Nat) (val : α)
    (hn : InStorage pQ) (hp : HeapProperty pQ)
    (hroom : (grown w pQ).size + 1 < (grown w pQ).heap.length) :
    ∃ pQ1, pQueue_push w pQ priority val = .ok pQ1 ∧ pQ1.size = pQ.size + 1 ∧
      InStorage pQ1 ∧
      ∀ i, 2 ≤ i → i ≤ pQ.size + 1 → prioAt pQ1.heap i ≤ prioAt pQ1.heap (i / 2) := by
  obtain ⟨pQ1, hpush, hs, -, hl, -, hheap⟩ := push_spec w pQ priority val hroom
  refine ⟨pQ1, hpush, hs, ?_, fun i hi hin => ?_⟩
  · unfold InStorage
    rw [hs, hl, ← grown_size w pQ]
    exact hroom
  · exact hheap hn hp i hi (by rw [hs]; exact hin)

theorem push_preserves_heap_witness :
    InStorage full2 ∧ HeapProperty full2 ∧
      (grown 64 full2).size + 1 < (grown 64 full2).heap.length ∧
      pQueue_push 64 full2 10 3 = .ok ⟨3, 3, [⟨0, 0⟩, ⟨10, 3⟩, ⟨1, 2⟩, ⟨5, 1⟩]⟩ ∧
      ∃ pQ1, pQueue_push 64 full2 10 3 = .ok pQ1 ∧ pQ1.size = full2.size + 1 ∧
        InStorage pQ1 ∧
        ∀ i, 2 ≤ i → i ≤ full2.size + 1 → prioAt pQ1.heap i ≤ prioAt pQ1.heap (i / 2) :=
  ⟨by decide, by decide, by decide, rfl,
    push_preserves_heap 64 full2 10 3 (by decide) (by decide) (by decide)⟩

/-- Claim C6: `pQueue_pop` preserves the heap property: on a non-empty queue
whose slots `1 .. size` lie in the storage and satisfy
`priority[i] <= priority[i / 2]` for `2 <= i <= size`, the call returns a queue
of size `size - 1` satisfying `priority[i] <= priority[i / 2]` for
`2 <= i <= size - 1`. -/
theorem pop_preserves_heap (pQ : pQueue α) (h0 : pQ.size ≠ 0) (hn : InStorage pQ)
    (hp : HeapProperty pQ) :
    ∃ e pQ1, pQueue_pop pQ = .ok (e, pQ1) ∧ pQ1.size = pQ.size - 1 ∧
      InStorage pQ1 ∧
      ∀ i, 2 ≤ i → i ≤ pQ.size - 1 → prioAt pQ1.heap i ≤ prioAt pQ1.heap (i / 2) := by
  obtain ⟨e, pQ1, hpop, -, hs, -, hl, -, hheap⟩ := pop_spec pQ h0 hn
  refine ⟨e, pQ1, hpop, hs, ?_, fun i hi hin => ?_⟩
  · unfold InStorage at hn ⊢
    omega
  · exact hheap hp i hi (by rw [hs]; exact hin)

theorem pop_preserves_heap_witness :
    sample3.size ≠ 0 ∧ InStorage sample3 ∧ HeapProperty sample3 ∧
      pQueue_pop sample3
        = .ok (⟨10, 3⟩, ⟨2, 4, [⟨0, 0⟩, ⟨5, 1⟩, ⟨1, 2⟩, ⟨10, 3⟩, ⟨0, 0⟩]⟩) ∧
      ∃ e pQ1, pQueue_pop sample3 = .ok (e, pQ1) ∧ pQ1.size = sample3.size - 1 ∧
        InStorage pQ1 ∧
        ∀ i, 2 ≤ i → i ≤ sample3.size - 1 → prioAt pQ1.heap i ≤ prioAt pQ1.heap (i / 2) :=
  ⟨by decide, by decide, by decide, rfl,
    pop_preserves_heap sample3 (by decide) (by decide) (by decide)⟩

/-! ### Size and capacity -/

theorem push_size [Inhabited α] (w : Nat) (pQ pQ1 : pQueue α) (priority : Nat) (val : α)
    (h : pQueue_push w pQ priority val = .ok pQ1) :
    pQ1.size = pQ.size + 1 ∧ pQ1.capacity = (grown w pQ).capacity ∧
      pQ1.heap.length = (grown w pQ).heap.length := by
  by_cases hroom : (grown w pQ).size + 1 < (grown w pQ).heap.length
  · obtain ⟨pQ2, hpush, hs, hcap, hl, -, -⟩ := push_spec w pQ priority val hroom
    rw [hpush] at h
    cases h
    exact ⟨hs, hcap, hl⟩
  · rw [push_grown] at h
    simp [store, hroom] at h

theorem pop_size (pQ pQ1 : pQueue α) (e : pQueue_elem α) (h : pQueue_pop pQ = .ok (e, pQ1)) :
    pQ.size ≠ 0 ∧ pQ1.size = pQ.size - 1 ∧ pQ1.capacity = pQ.capacity ∧
      pQ1.heap.length = pQ.heap.length := by
  by_cases h0 : pQ.size = 0
  · simp [pQueue_pop, pQueue_empty, h0] at h
  · by_cases hn : pQ.size < pQ.heap.length
    · obtain ⟨e2, pQ2, hpop, -, hs, hcap, hl, -, -⟩ := pop_spec pQ h0 hn
      rw [hpop] at h
      cases h
      exact ⟨h0, hs, hcap, hl⟩
    · have hnone : pQ.heap[pQ.size]? = none := List.getElem?_eq_none (by omega)
      simp only [pQueue_pop, pQueue_empty, beq_iff_eq, h0, if_false] at h
      unfold swap at h
      simp only [load, hnone] at h
      split at h <;> simp at h

theorem pop_total (pQ : pQueue α) (h0 : pQ.size ≠ 0) :
    pQueue_pop pQ = .error .outOfBounds ∨ ∃ e pQ1, pQueue_pop pQ = .ok (e, pQ1) := by
  by_cases hn : pQ.size < pQ.heap.length
  · obtain ⟨e, pQ1, hpop, -⟩ := pop_spec pQ h0 hn
    exact Or.inr ⟨e, pQ1, hpop⟩
  · left
    have hnone : pQ.heap[pQ.size]? = none := List.getElem?_eq_none (by omega)
    cases h1 : pQ.heap[1]? with
    | none => simp [pQueue_pop, pQueue_empty, h0, load, h1]
    | some e => simp [pQueue_pop, pQueue_empty, h0, load, swap, h1, hnone]

/-- Claim C8, the code on `pQueue_init 64 0` followed by one push: the growth
step leaves the capacity at 0 and the storage at one slot, the new element is
stored at index `size + 1 = 1`, which is above the capacity and outside the
storage, so the push does not return a queue with `size <= capacity`. -/
theorem push_at_capacity_zero :
    (grown 64 (pQueue_init 64 0 : pQueue Nat)).capacity = 0 ∧
      (grown 64 (pQueue_init 64 0 : pQueue Nat)).heap.length = 1 ∧
      (grown 64 (pQueue_init 64 0 : pQueue Nat)).size + 1 = 1 ∧
      run 64 (pQueue_init 64 0 : pQueue Nat) [Op.push 5 7] = .error .outOfBounds :=
  ⟨rfl, rfl, rfl, rfl⟩

/-- Claim C9 as stated fails on the full queue `full2` of capacity 2: the
tripled capacity fits in 64 bits, the push returns, and the capacity after it
is 3, which is not `2 * 3 / 2 + 1 = 4`. -/
theorem growth_plus_one_fails :
    full2.size = full2.capacity ∧ full2.capacity * 3 < 2 ^ 64 ∧
      pQueue_push 64 full2 10 3
        = .ok ⟨3, 3, [⟨0, 0⟩, ⟨10, 3⟩, ⟨1, 2⟩, ⟨5, 1⟩]⟩ ∧
      (grown 64 full2).capacity = 3 ∧
      ¬ ((grown 64 full2).capacity = full2.capacity * 3 / 2 + 1) :=
  ⟨rfl, by decide, rfl, rfl, by decide⟩

theorem alloc_slots_fits (w n : Nat) (hs : 0 < sizeof_elem w)
    (hfit : sizeof_elem w * n < 2 ^ w) : alloc_slots w n = n := by
  unfold alloc_slots
  rw [Nat.mod_eq_of_lt hfit, Nat.mul_div_cancel_left n hs]

theorem bytes_fit_product (w cap : Nat) (hs : 2 ≤ sizeof_elem w)
    (hfit : sizeof_elem w * (cap * 3 / 2 + 1) < 2 ^ w) : cap * 3 < 2 ^ w := by
  have := Nat.mul_le_mul_right (cap * 3 / 2 + 1) hs
  omega

theorem increase_capacity_fits [Inhabited α] (w : Nat) (pQ : pQueue α)
    (hfit : pQ.capacity * 3 < 2 ^ w) :
    (increase_capacity w pQ).capacity = pQ.capacity * 3 / 2 ∧
      (increase_capacity w pQ).size = pQ.size := by
  refine ⟨?_, rfl⟩
  simp [increase_capacity, CAP_MULT_NUM, CAP_MULT_DEN, Nat.mod_eq_of_lt hfit]

theorem increase_capacity_length [Inhabited α] (w : Nat) (pQ : pQueue α)
    (hs : 0 < sizeof_elem w) (hfit : pQ.capacity * 3 < 2 ^ w)
    (hbytes : sizeof_elem w * (pQ.capacity * 3 / 2 + 1) < 2 ^ w) :
    (increase_capacity w pQ).heap.length = pQ.capacity * 3 / 2 + 1 := by
  simp only [increase_capacity, length_realloc, CAP_MULT_NUM, CAP_MULT_DEN,
    Nat.mod_eq_of_lt hfit]
  exact alloc_slots_fits w _ hs hbytes

/-- Claim C9, amended: when `pQueue_push` is called on a full queue
(`size == capacity`) of capacity at least 2 whose tripled capacity fits in
`size_t`, the growth step sets the capacity field to
`floor (capacity * 3 / 2)`, and every push that returns leaves it so; the push
returns when the byte count of the growth request fits in `size_t` as well. -/
theorem growth_capacity [Inhabited α] (w : Nat) (pQ : pQueue α)
    (hfull : pQ.size = pQ.capacity) (h2 : 2 ≤ pQ.capacity)
    (hfit : pQ.capacity * 3 < 2 ^ w) :
    (grown w pQ).capacity = pQ.capacity * 3 / 2 ∧
      (∀ priority val pQ1, pQueue_push w pQ priority val = .ok pQ1 →
        pQ1.capacity = pQ.capacity * 3 / 2) ∧
      (0 < sizeof_elem w → sizeof_elem w * (pQ.capacity * 3 / 2 + 1) < 2 ^ w →
        ∀ priority val, ∃ pQ1, pQueue_push w pQ priority val = .ok pQ1 ∧
          pQ1.capacity = pQ.capacity * 3 / 2) := by
  have hg : grown w pQ = increase_capacity w pQ := by simp [grown, hfull]
  obtain ⟨hc, hsz⟩ := increase_capacity_fits w pQ hfit
  rw [hg]
  refine ⟨hc, fun priority val pQ1 hpush => ?_, fun hs hbytes priority val => ?_⟩
  · obtain ⟨-, hc1, -⟩ := push_size w pQ pQ1 priority val hpush
    rw [hg] at hc1
    exact hc1.trans hc
  · have hl := increase_capacity_length w pQ hs hfit hbytes
    obtain ⟨pQ1, hpush, -, hc1, -⟩ :=
      push_spec w pQ priority val (by rw [hg, hsz, hl]; omega)
    rw [hg] at hc1
    exact ⟨pQ1, hpush, hc1.trans hc⟩

theorem growth_capacity_witness :
    full2.size = full2.capacity ∧ 2 ≤ full2.capacity ∧ full2.capacity * 3 < 2 ^ 64 ∧
      0 < sizeof_elem 64 ∧ sizeof_elem 64 * (full2.capacity * 3 / 2 + 1) < 2 ^ 64 ∧
      ((grown 64 full2).capacity = full2.capacity * 3 / 2 ∧
        (∀ priority val pQ1, pQueue_push 64 full2 priority val = .ok pQ1 →
          pQ1.capacity = full2.capacity * 3 / 2) ∧
        (0 < sizeof_elem 64 → sizeof_elem 64 * (full2.capacity * 3 / 2 + 1) < 2 ^ 64 →
          ∀ priority val, ∃ pQ1, pQueue_push 64 full2 priority val = .ok pQ1 ∧
            pQ1.capacity = full2.capacity * 3 / 2)) :=
  ⟨rfl, by decide, by decide, by decide, by decide,
    growth_capacity 64 full2 rfl (by decide) (by decide)⟩

/-- Claim C10, the code on `pQueue_init 64 1`: the first push returns the full
queue `full1`; on it the growth step leaves the capacity at 1, not above it,
and the storage at two slots, so that the index `size + 1 = 2` of the new
element is above the capacity and the second push leaves the storage. -/
theorem push_at_capacity_one :
    pQueue_push 64 (pQueue_init 64 1) 5 7 = .ok full1 ∧
      full1.size = full1.capacity ∧
      (increase_capacity 64 full1).capacity = full1.capacity ∧
      (increase_capacity 64 full1).heap.length = 2 ∧
      (grown 64 full1).size + 1 = 2 ∧
      pQueue_push 64 full1 1 8 = .error .outOfBounds :=
  ⟨rfl, rfl, rfl, rfl, rfl, rfl⟩

/-! ### Termination of the two loops -/

theorem load_cases (h : List (pQueue_elem α)) (i : Nat) :
    load h i = .error .outOfBounds ∨ ∃ e, load h i = .ok e := by
  unfold load
  cases h[i]? with
  | none => exact Or.inl rfl
  | some e => exact Or.inr ⟨e, rfl⟩

theorem swap_cases (pQ : pQueue α) (i j : Nat) :
    swap pQ i j = .error .outOfBounds ∨
      ∃ pQ1, swap pQ i j = .ok pQ1 ∧ pQ1.size = pQ.size ∧ pQ1.capacity = pQ.capacity ∧
        pQ1.heap.length = pQ.heap.length := by
  by_cases hi : i < pQ.heap.length
  · by_cases hj : j < pQ.heap.length
    · exact Or.inr ⟨_, swap_ok pQ hi hj, rfl, rfl, length_exch _ _ _⟩
    · left
      have hnone : pQ.heap[j]? = none := List.getElem?_eq_none (by omega)
      simp [swap, load, List.getElem?_eq_getElem hi, hnone]
  · left
    have hnone : pQ.heap[i]? = none := List.getElem?_eq_none (by omega)
    simp [swap, load, hnone]

theorem bubble_up_loop_total (fuel : Nat) (pQ : pQueue α) (c : Nat) (hc1 : 1 ≤ c)
    (hf : c ≤ fuel) :
    bubble_up_loop fuel pQ c (c >>> 1) = .error .outOfBounds ∨
      ∃ pQ1, bubble_up_loop fuel pQ c (c >>> 1) = .ok pQ1 := by
  by_cases hb : c < pQ.heap.length
  · obtain ⟨pQ1, hrun, -⟩ := bubble_up_loop_spec c fuel pQ c hc1 (Nat.le_refl c) hb hf
    exact Or.inr ⟨pQ1, hrun⟩
  · obtain ⟨f, rfl⟩ : ∃ f, fuel = f + 1 := ⟨fuel - 1, by omega⟩
    have hnone : pQ.heap[c]? = none := List.getElem?_eq_none (by omega)
    rw [Nat.shiftRight_one]
    by_cases h0 : c / 2 = 0
    · exact Or.inr ⟨pQ, by simp [bubble_up_loop, h0]⟩
    · left
      simp [bubble_up_loop, h0, load, hnone]

theorem larger_left_cases (pQ : pQueue α) (q : Nat) :
    larger_left pQ q = .error .outOfBounds ∨
      ∃ m1, larger_left pQ q = .ok m1 ∧ (m1 = q ∨ (m1 = 2 * q ∧ 2 * q ≤ pQ.size)) := by
  have hsl : q <<< 1 = 2 * q := by rw [Nat.shiftLeft_eq]; omega
  unfold larger_left
  rw [hsl]
  by_cases hl : 2 * q ≤ pQ.size
  · rw [if_pos hl]
    rcases load_cases pQ.heap q with h1 | ⟨p, h1⟩
    · left; simp [h1]
    · rcases load_cases pQ.heap (2 * q) with h2 | ⟨l, h2⟩
      · left; simp [h1, h2]
      · right
        by_cases hlt : p.priority < l.priority
        · exact ⟨2 * q, by simp [h1, h2, hlt], Or.inr ⟨rfl, hl⟩⟩
        · exact ⟨q, by simp [h1, h2, hlt], Or.inl rfl⟩
  · rw [if_neg hl]
    exact Or.inr ⟨q, rfl, Or.inl rfl⟩

theorem larger_right_cases (pQ : pQueue α) (q m1 : Nat) :
    larger_right pQ q m1 = .error .outOfBounds ∨
      ∃ m, larger_right pQ q m1 = .ok m ∧
        (m = m1 ∨ (m = 2 * q + 1 ∧ 2 * q + 1 ≤ pQ.size)) := by
  have hsl : q <<< 1 = 2 * q := by rw [Nat.shiftLeft_eq]; omega
  unfold larger_right
  rw [hsl]
  by_cases hr : 2 * q + 1 ≤ pQ.size
  · rw [if_pos hr]
    rcases load_cases pQ.heap m1 with h1 | ⟨p, h1⟩
    · left; simp [h1]
    · rcases load_cases pQ.heap (2 * q + 1) with h2 | ⟨r, h2⟩
      · left; simp [h1, h2]
      · right
        by_cases hlt : p.priority < r.priority
        · exact ⟨2 * q + 1, by simp [h1, h2, hlt], Or.inr ⟨rfl, hr⟩⟩
        · exact ⟨m1, by simp [h1, h2, hlt], Or.inl rfl⟩
  · rw [if_neg hr]
    exact Or.inr ⟨m1, rfl, Or.inl rfl⟩

theorem bubble_down_loop_total (fuel : Nat) (pQ : pQueue α) (q : Nat) (hq : 1 ≤ q)
    (hqn : q ≤ pQ.size + 1) (hf : pQ.size + 2 ≤ fuel + q) :
    bubble_down_loop fuel pQ q = .error .outOfBounds ∨
      ∃ pQ1, bubble_down_loop fuel pQ q = .ok pQ1 := by
  induction fuel generalizing pQ q with
  | zero => omega
  | succ fuel ih =>
    rcases larger_left_cases pQ q with e1 | ⟨m1, e1, hm1⟩
    · left; simp [bubble_down_loop, e1]
    · rcases larger_right_cases pQ q m1 with e2 | ⟨m, e2, hm⟩
      · left; simp [bubble_down_loop, e1, e2]
      · by_cases hmq : m = q
        · right
          subst hmq
          exact ⟨pQ, by simp [bubble_down_loop, e1, e2]⟩
        · have hms : q < m ∧ m ≤ pQ.size := by omega
          rcases swap_cases pQ m q with e3 | ⟨pQ1, e3, hs, -, -⟩
          · left; simp [bubble_down_loop, e1, e2, hmq, e3]
          · have hqs : q ≤ pQ1.size := by omega
            have := ih pQ1 m (by omega) (by omega) (by omega)
            simpa [bubble_down_loop, e1, e2, hmq, e3, hqs] using this

theorem bubble_up_loop_succ (fuel : Nat) (pQ : pQueue α) (c p : Nat)
    (h : bubble_up_loop fuel pQ c p ≠ .error .diverged) :
    bubble_up_loop (fuel + 1) pQ c p = bubble_up_loop fuel pQ c p := by
  induction fuel generalizing pQ c p with
  | zero => simp [bubble_up_loop] at h
  | succ fuel ih =>
    rw [bubble_up_loop, bubble_up_loop]
    rw [bubble_up_loop] at h
    split
    · split
      · rfl
      · split
        · rfl
        · split
          · split
            · rfl
            · rename_i pQ1 hsw
              apply ih
              simpa [*] using h
          · rfl
    · rfl

theorem bubble_up_loop_stable (fuel k : Nat) (pQ : pQueue α) (c p : Nat)
    (h : bubble_up_loop fuel pQ c p ≠ .error .diverged) :
    bubble_up_loop (fuel + k) pQ c p = bubble_up_loop fuel pQ c p := by
  induction k with
  | zero => rfl
  | succ k ih =>
    rw [← Nat.add_assoc, bubble_up_loop_succ _ _ _ _ (by rw [ih]; exact h), ih]

theorem bubble_down_loop_succ (fuel : Nat) (pQ : pQueue α) (q : Nat)
    (h : bubble_down_loop fuel pQ q ≠ .error .diverged) :
    bubble_down_loop (fuel + 1) pQ q = bubble_down_loop fuel pQ q := by
  induction fuel generalizing pQ q with
  | zero => simp [bubble_down_loop] at h
  | succ fuel ih =>
    rw [bubble_down_loop, bubble_down_loop]
    rw [bubble_down_loop] at h
    cases h1 : larger_left pQ q with
    | error f => simp only [h1]
    | ok m1 =>
      cases h2 : larger_right pQ q m1 with
      | error f => simp only [h1, h2]
      | ok m =>
        cases h3 : (if m ≠ q then swap pQ m q else .ok pQ) with
        | error f => simp only [h1, h2, h3]
        | ok pQ1 =>
          simp only [h1, h2, h3] at h ⊢
          by_cases hc : q ≤ pQ1.size ∧ m ≠ q
          · rw [if_pos hc] at h ⊢
            rw [if_pos hc]
            exact ih _ _ h
          · rw [if_neg hc, if_neg hc]

theorem bubble_down_loop_stable (fuel k : Nat) (pQ : pQueue α) (q : Nat)
    (h : bubble_down_loop fuel pQ q ≠ .error .diverged) :
    bubble_down_loop (fuel + k) pQ q = bubble_down_loop fuel pQ q := by
  induction k with
  | zero => rfl
  | succ k ih =>
    rw [← Nat.add_assoc, bubble_down_loop_succ _ _ _ (by rw [ih]; exact h), ih]
/-! ### What a push leaves alone -/

theorem bubble_up_loop_frame (fuel : Nat) (pQ pQ1 : pQueue α) (c : Nat)
    (hb : c < pQ.heap.length)
    (hrun : bubble_up_loop fuel pQ c (c >>> 1) = .ok pQ1) :
    ∀ j, (∀ t, j ≠ c >>> t) → pQ1.heap[j]? = pQ.heap[j]? := by
  induction fuel generalizing pQ c with
  | zero => simp [bubble_up_loop] at hrun
  | succ fuel ih =>
    intro j hj
    have hp : c / 2 < pQ.heap.length := by omega
    rw [Nat.shiftRight_one] at hrun
    by_cases h0 : c / 2 = 0
    · simp [bubble_up_loop, h0] at hrun
      rw [hrun]
    · by_cases hgt : pQ.heap[c].priority > pQ.heap[c / 2].priority
      · simp only [bubble_up_loop, ne_eq, h0, not_false_eq_true, if_true, load_ok _ hb,
          load_ok _ hp, hgt, swap_ok _ hb hp] at hrun
        have hlen : (exch pQ.heap c (c / 2)).length = pQ.heap.length := length_exch _ _ _
        have := ih { pQ with heap := exch pQ.heap c (c / 2) } (c / 2)
          (by show c / 2 < (exch pQ.heap c (c / 2)).length; omega) hrun j
          (fun t => by
            have := hj (1 + t)
            rwa [Nat.shiftRight_add, Nat.shiftRight_one] at this)
        rw [this]
        show (exch pQ.heap c (c / 2))[j]? = _
        have hj0 : j ≠ c := by simpa using hj 0
        have hj1 : j ≠ c / 2 := by simpa [Nat.shiftRight_one] using hj 1
        rw [getElem?_exch _ hb hp, if_neg hj1, if_neg hj0]
      · simp [bubble_up_loop, h0, load_ok _ hb, load_ok _ hp, hgt] at hrun
        rw [hrun]

theorem pushed_size [Inhabited α] (w : Nat) (pQ : pQueue α) (priority : Nat) (val : α) :
    (pushed w pQ priority val).size = pQ.size := grown_size w pQ

theorem pushed_length [Inhabited α] (w : Nat) (pQ : pQueue α) (priority : Nat) (val : α) :
    (pushed w pQ priority val).heap.length = (grown w pQ).heap.length :=
  List.length_set _ _ _

theorem pushed_new [Inhabited α] (w : Nat) (pQ : pQueue α) (priority : Nat) (val : α)
    (hroom : (grown w pQ).size + 1 < (grown w pQ).heap.length) :
    (pushed w pQ priority val).heap[pQ.size + 1]? = some ⟨priority, val⟩ := by
  rw [← grown_size w pQ]
  exact List.getElem?_set_self hroom

theorem pushed_old [Inhabited α] (w : Nat) (pQ : pQueue α) (priority : Nat) (val : α)
    (hn : InStorage pQ) (hroom : (grown w pQ).size + 1 < (grown w pQ).heap.length)
    {j : Nat} (hj : j ≤ pQ.size) :
    (pushed w pQ priority val).heap[j]? = pQ.heap[j]? := by
  unfold InStorage at hn
  have hgs := grown_size w pQ
  show ((grown w pQ).heap.set ((grown w pQ).size + 1) ⟨priority, val⟩)[j]? = _
  rw [List.getElem?_set_ne (by omega), grown_getElem? w pQ (by omega) (by omega)]

theorem push_of_bubble_up [Inhabited α] (w : Nat) (pQ pQ2 : pQueue α) (priority : Nat)
    (val : α) (hroom : (grown w pQ).size + 1 < (grown w pQ).heap.length)
    (hrun : bubble_up (pushed w pQ priority val) = .ok pQ2) :
    pQueue_push w pQ priority val = .ok { pQ2 with size := pQ2.size + 1 } := by
  rw [push_grown, store_ok _ hroom]
  have hrun1 : bubble_up { grown w pQ with
      heap := (grown w pQ).heap.set ((grown w pQ).size + 1) ⟨priority, val⟩ } = .ok pQ2 := hrun
  simp only [hrun1]

theorem bubble_up_pushed [Inhabited α] (w : Nat) (pQ : pQueue α) (priority : Nat) (val : α)
    (hroom : (grown w pQ).size + 1 < (grown w pQ).heap.length) :
    ∃ pQ2, bubble_up (pushed w pQ priority val) = .ok pQ2 := by
  have hs := pushed_size w pQ priority val
  have hl := pushed_length w pQ priority val
  have hgs := grown_size w pQ
  obtain ⟨pQ2, hrun, -⟩ := bubble_up_loop_spec ((pushed w pQ priority val).size + 1)
    ((pushed w pQ priority val).size + 1) (pushed w pQ priority val)
    ((pushed w pQ priority val).size + 1) (by omega) (Nat.le_refl _) (by omega) (Nat.le_refl _)
  exact ⟨pQ2, hrun⟩

/-- Claim C19: `pQueue_push` changes only slots on the path from the new slot
`size + 1` to the root: on a queue state with room for the slot `size + 1`,
every index `j` in `1 .. size` that is not `(size + 1) >> t` for some `t >= 1`
holds the same element after the push as before it. -/
theorem push_frame [Inhabited α] (w : Nat) (pQ : pQueue α) (priority : Nat) (val : α)
    (hn : InStorage pQ) (hroom : (grown w pQ).size + 1 < (grown w pQ).heap.length) :
    ∃ pQ1, pQueue_push w pQ priority val = .ok pQ1 ∧
      ∀ j, 1 ≤ j → j ≤ pQ.size → (∀ t, 1 ≤ t → j ≠ (pQ.size + 1) >>> t) →
        pQ1.heap[j]? = pQ.heap[j]? := by
  have hs := pushed_size w pQ priority val
  have hl := pushed_length w pQ priority val
  have hgs := grown_size w pQ
  obtain ⟨pQ2, hrun⟩ := bubble_up_pushed w pQ priority val hroom
  refine ⟨_, push_of_bubble_up w pQ pQ2 priority val hroom hrun, fun j _ hj hoff => ?_⟩
  show pQ2.heap[j]? = _
  have hfr := bubble_up_loop_frame _ _ _ _ (by omega) hrun j (fun t => by
    rw [hs]
    cases t with
    | zero => simp; omega
    | succ t => exact hoff (t + 1) (by omega))
  rw [hfr, pushed_old w pQ priority val hn hroom hj]

theorem push_frame_witness :
    InStorage sample3 ∧ (grown 64 sample3).size + 1 < (grown 64 sample3).heap.length ∧
      pQueue_push 64 sample3 7 4
        = .ok ⟨4, 4, [⟨0, 0⟩, ⟨10, 3⟩, ⟨7, 4⟩, ⟨5, 1⟩, ⟨1, 2⟩]⟩ ∧
      ∃ pQ1, pQueue_push 64 sample3 7 4 = .ok pQ1 ∧
        ∀ j, 1 ≤ j → j ≤ sample3.size → (∀ t, 1 ≤ t → j ≠ (sample3.size + 1) >>> t) →
          pQ1.heap[j]? = sample3.heap[j]? :=
  ⟨by decide, by decide, rfl, push_frame 64 sample3 7 4 (by decide) (by decide)⟩

/-- Claim C16: a push whose priority does not exceed the priority stored at the
parent index `(size + 1) / 2` swaps nothing, equal priorities included: on a
non-empty queue state with room for the slot `size + 1` it leaves the slots
`1 .. size` as they were and stores the new element in the slot `size + 1`. -/
theorem push_no_swap [Inhabited α] (w : Nat) (pQ : pQueue α) (priority : Nat) (val : α)
    (h0 : pQ.size ≠ 0) (hn : InStorage pQ)
    (hroom : (grown w pQ).size + 1 < (grown w pQ).heap.length)
    (hle : priority ≤ prioAt pQ.heap ((pQ.size + 1) / 2)) :
    ∃ pQ1, pQueue_push w pQ priority val = .ok pQ1 ∧ pQ1.size = pQ.size + 1 ∧
      (∀ j, 1 ≤ j → j ≤ pQ.size → pQ1.heap[j]? = pQ.heap[j]?) ∧
      pQ1.heap[pQ.size + 1]? = some ⟨priority, val⟩ := by
  have hs := pushed_size w pQ priority val
  have hl := pushed_length w pQ priority val
  have hgs := grown_size w pQ
  have hc : pQ.size + 1 < (pushed w pQ priority val).heap.length := by omega
  have hp : (pQ.size + 1) / 2 < (pushed w pQ priority val).heap.length := by omega
  have hnew := pushed_new w pQ priority val hroom
  have hpar := pushed_old w pQ priority val hn hroom (show (pQ.size + 1) / 2 ≤ pQ.size by omega)
  have hrun : bubble_up (pushed w pQ priority val) = .ok (pushed w pQ priority val) := by
    have hne : (pQ.size + 1) / 2 ≠ 0 := by omega
    rw [List.getElem?_eq_getElem hc] at hnew
    rw [List.getElem?_eq_getElem hp] at hpar
    have hle1 : ¬ ((pushed w pQ priority val).heap[pQ.size + 1].priority >
        (pushed w pQ priority val).heap[(pQ.size + 1) / 2].priority) := by
      unfold prioAt at hle
      rw [← hpar] at hle
      rw [Option.some.inj hnew]
      simpa using hle
    unfold bubble_up
    rw [hs, Nat.shiftRight_one]
    simp only [bubble_up_loop, ne_eq, hne, not_false_eq_true, if_true, load_ok _ hc,
      load_ok _ hp, hle1, if_false]
  refine ⟨_, push_of_bubble_up w pQ _ priority val hroom hrun, ?_, fun j _ hj => ?_, hnew⟩
  · show (pushed w pQ priority val).size + 1 = pQ.size + 1
    rw [hs]
  · exact pushed_old w pQ priority val hn hroom hj

theorem push_no_swap_witness :
    sample3.size ≠ 0 ∧ InStorage sample3 ∧
      (grown 64 sample3).size + 1 < (grown 64 sample3).heap.length ∧
      1 ≤ prioAt sample3.heap ((sample3.size + 1) / 2) ∧
      pQueue_push 64 sample3 1 9
        = .ok ⟨4, 4, [⟨0, 0⟩, ⟨10, 3⟩, ⟨1, 2⟩, ⟨5, 1⟩, ⟨1, 9⟩]⟩ ∧
      ∃ pQ1, pQueue_push 64 sample3 1 9 = .ok pQ1 ∧ pQ1.size = sample3.size + 1 ∧
        (∀ j, 1 ≤ j → j ≤ sample3.size → pQ1.heap[j]? = sample3.heap[j]?) ∧
        pQ1.heap[sample3.size + 1]? = some ⟨1, 9⟩ :=
  ⟨by decide, by decide, by decide, by decide, rfl,
    push_no_swap 64 sample3 1 9 (by decide) (by decide) (by decide) (by decide)⟩

/-! ### Termination, capacity, peek and the empty queue -/

/-- Claim C18: the two sift loops end on every value of the queue struct,
whatever its priorities: `bubble_up` and `bubble_down` never exhaust the budget
of `size + 1` iterations, a larger budget gives the same result, and when the
slots involved lie in the storage both return a queue. -/
theorem sift_loops_terminate (pQ : pQueue α) :
    bubble_up pQ ≠ .error .diverged ∧ bubble_down pQ ≠ .error .diverged ∧
      (∀ fuel, pQ.size + 1 ≤ fuel →
        bubble_up_loop fuel pQ (pQ.size + 1) ((pQ.size + 1) >>> 1) = bubble_up pQ) ∧
      (∀ fuel, pQ.size + 1 ≤ fuel → bubble_down_loop fuel pQ 1 = bubble_down pQ) ∧
      (pQ.size + 1 < pQ.heap.length → ∃ pQ1, bubble_up pQ = .ok pQ1) ∧
      (InStorage pQ → ∃ pQ1, bubble_down pQ = .ok pQ1) := by
  have hup : bubble_up pQ ≠ .error .diverged := by
    rcases bubble_up_loop_total (pQ.size + 1) pQ (pQ.size + 1) (by omega) (Nat.le_refl _)
      with h | ⟨pQ1, h⟩ <;> simp [bubble_up, h]
  have hdown : bubble_down pQ ≠ .error .diverged := by
    rcases bubble_down_loop_total (pQ.size + 1) pQ 1 (Nat.le_refl _) (by omega) (by omega)
      with h | ⟨pQ1, h⟩ <;> simp [bubble_down, h]
  refine ⟨hup, hdown, fun fuel hf => ?_, fun fuel hf => ?_, fun hb => ?_, fun hn => ?_⟩
  · obtain ⟨k, rfl⟩ : ∃ k, fuel = pQ.size + 1 + k := ⟨fuel - (pQ.size + 1), by omega⟩
    exact bubble_up_loop_stable _ k pQ _ _ hup
  · obtain ⟨k, rfl⟩ : ∃ k, fuel = pQ.size + 1 + k := ⟨fuel - (pQ.size + 1), by omega⟩
    exact bubble_down_loop_stable _ k pQ _ hdown
  · obtain ⟨pQ1, h, -⟩ := bubble_up_loop_spec (pQ.size + 1) (pQ.size + 1) pQ (pQ.size + 1)
      (by omega) (Nat.le_refl _) hb (Nat.le_refl _)
    exact ⟨pQ1, h⟩
  · obtain ⟨pQ1, h, -⟩ := bubble_down_loop_spec (pQ.size + 1) pQ 1 (Nat.le_refl _)
      (by omega) hn (by omega)
    exact ⟨pQ1, h⟩

theorem sift_loops_terminate_witness :
    ¬ HeapProperty unsorted3 ∧
      bubble_down unsorted3
        = .ok ⟨3, 4, [⟨0, 0⟩, ⟨9, 3⟩, ⟨5, 2⟩, ⟨1, 1⟩, ⟨7, 4⟩]⟩ ∧
      bubble_up unsorted3
        = .ok ⟨3, 4, [⟨0, 0⟩, ⟨7, 4⟩, ⟨1, 1⟩, ⟨9, 3⟩, ⟨5, 2⟩]⟩ ∧
      (bubble_up unsorted3 ≠ .error .diverged ∧ bubble_down unsorted3 ≠ .error .diverged ∧
        (∀ fuel, unsorted3.size + 1 ≤ fuel →
          bubble_up_loop fuel unsorted3 (unsorted3.size + 1) ((unsorted3.size + 1) >>> 1)
            = bubble_up unsorted3) ∧
        (∀ fuel, unsorted3.size + 1 ≤ fuel →
          bubble_down_loop fuel unsorted3 1 = bubble_down unsorted3) ∧
        (unsorted3.size + 1 < unsorted3.heap.length → ∃ pQ1, bubble_up unsorted3 = .ok pQ1) ∧
        (InStorage unsorted3 → ∃ pQ1, bubble_down unsorted3 = .ok pQ1)) :=
  ⟨by decide, rfl, rfl, sift_loops_terminate unsorted3⟩

/-- Claim C11, the code on the scenario of the specification (64-bit `size_t`):
after `pQueue_init 64 1` the first push returns a full queue; the second push
grows the capacity from 1 to 1 and the storage from two slots to two slots and
then stores to the slot 2, outside the storage, so the run of the three pushes
stops there.  The same three pushes on `pQueue_init 64 2` return, with `(10, c)`
at the root. -/
theorem scenario_leaves_storage :
    pQueue_push 64 (pQueue_init 64 1) 5 'a' = .ok ⟨1, 1, [default, ⟨5, 'a'⟩]⟩ ∧
      (grown 64 (⟨1, 1, [default, ⟨5, 'a'⟩]⟩ : pQueue Char)).heap.length = 2 ∧
      pQueue_push 64 ⟨1, 1, [default, ⟨5, 'a'⟩]⟩ 1 'b' = .error .outOfBounds ∧
      run 64 (pQueue_init 64 1) pushes3 = .error .outOfBounds ∧
      run 64 (pQueue_init 64 2) pushes3
        = .ok ⟨3, 3, [default, ⟨10, 'c'⟩, ⟨1, 'b'⟩, ⟨5, 'a'⟩]⟩ :=
  ⟨rfl, rfl, rfl, rfl, rfl⟩

/-- Claim C12: the capacity never decreases.  A pop that returns leaves the
capacity as it was, and it returns on every non-empty queue state; when the
tripled capacity fits in `size_t`, the growth step does not lower the
capacity, a push that returns leaves a capacity at least the previous one, and
it returns whenever the slot `size + 1` lies in the storage after the growth
step. -/
theorem capacity_never_decreases [Inhabited α] (w : Nat) (pQ : pQueue α) :
    (∀ e pQ1, pQueue_pop pQ = .ok (e, pQ1) → pQ1.capacity = pQ.capacity) ∧
      (pQ.size ≠ 0 → InStorage pQ →
        ∃ e pQ1, pQueue_pop pQ = .ok (e, pQ1) ∧ pQ1.capacity = pQ.capacity) ∧
      (pQ.capacity * 3 < 2 ^ w →
        pQ.capacity ≤ (grown w pQ).capacity ∧
        (∀ priority val pQ1, pQueue_push w pQ priority val = .ok pQ1 →
          pQ.capacity ≤ pQ1.capacity) ∧
        ((grown w pQ).size + 1 < (grown w pQ).heap.length →
          ∀ priority val, ∃ pQ1, pQueue_push w pQ priority val = .ok pQ1 ∧
            pQ.capacity ≤ pQ1.capacity)) := by
  refine ⟨fun e pQ1 h => (pop_size pQ pQ1 e h).2.2.1, fun h0 hn => ?_, fun hfit => ?_⟩
  · obtain ⟨e, pQ1, hpop, -, -, hcap, -⟩ := pop_spec pQ h0 hn
    exact ⟨e, pQ1, hpop, hcap⟩
  · have hg : pQ.capacity ≤ (grown w pQ).capacity := by
      unfold grown
      split
      · rw [(increase_capacity_fits w pQ hfit).1]; omega
      · exact Nat.le_refl _
    refine ⟨hg, fun priority val pQ1 h => ?_, fun hroom priority val => ?_⟩
    · rw [(push_size w pQ pQ1 priority val h).2.1]; exact hg
    · obtain ⟨pQ1, hpush, -, hcap, -⟩ := push_spec w pQ priority val hroom
      exact ⟨pQ1, hpush, by rw [hcap]; exact hg⟩

theorem capacity_never_decreases_witness :
    pQueue_push 64 full2 10 3 = .ok ⟨3, 3, [⟨0, 0⟩, ⟨10, 3⟩, ⟨1, 2⟩, ⟨5, 1⟩]⟩ ∧
      full2.size ≠ 0 ∧ InStorage full2 ∧ full2.capacity * 3 < 2 ^ 64 ∧
      (grown 64 full2).size + 1 < (grown 64 full2).heap.length ∧
      ((∀ e pQ1, pQueue_pop full2 = .ok (e, pQ1) → pQ1.capacity = full2.capacity) ∧
        (full2.size ≠ 0 → InStorage full2 →
          ∃ e pQ1, pQueue_pop full2 = .ok (e, pQ1) ∧ pQ1.capacity = full2.capacity) ∧
        (full2.capacity * 3 < 2 ^ 64 →
          full2.capacity ≤ (grown 64 full2).capacity ∧
          (∀ priority val pQ1, pQueue_push 64 full2 priority val = .ok pQ1 →
            full2.capacity ≤ pQ1.capacity) ∧
          ((grown 64 full2).size + 1 < (grown 64 full2).heap.length →
            ∀ priority val, ∃ pQ1, pQueue_push 64 full2 priority val = .ok pQ1 ∧
              full2.capacity ≤ pQ1.capacity))) :=
  ⟨rfl, by decide, by decide, by decide, by decide, capacity_never_decreases 64 full2⟩

/-- Claim C13: on a non-empty queue state `pQueue_peek` returns the element of
the slot 1 and leaves the size, the capacity and every slot of the storage as
they were, and a `pQueue_pop` called right after it returns the same element,
priority and value. -/
theorem peek_then_pop (pQ : pQueue α) (h0 : pQ.size ≠ 0) (hn : InStorage pQ) :
    ∃ e pQ1 pQ2, pQueue_peek_call pQ = .ok (e, pQ1) ∧ pQ.heap[1]? = some e ∧
      pQ1.size = pQ.size ∧ pQ1.capacity = pQ.capacity ∧ pQ1.heap = pQ.heap ∧
      pQueue_pop pQ1 = .ok (e, pQ2) := by
  obtain ⟨e, pQ2, hpop, he, -⟩ := pop_spec pQ h0 hn
  have b1 : 1 < pQ.heap.length := by unfold InStorage at hn; omega
  have hpeek : pQueue_peek pQ = .ok e := by
    rw [List.getElem?_eq_getElem b1] at he
    simp [pQueue_peek, pQueue_empty, h0, load_ok _ b1, Option.some.inj he]
  exact ⟨e, pQ, pQ2, by simp [pQueue_peek_call, hpeek], he, rfl, rfl, rfl, hpop⟩

theorem peek_then_pop_witness :
    sample3.size ≠ 0 ∧ InStorage sample3 ∧
      pQueue_peek_call sample3 = .ok (⟨10, 3⟩, sample3) ∧
      ∃ e pQ1 pQ2, pQueue_peek_call sample3 = .ok (e, pQ1) ∧ sample3.heap[1]? = some e ∧
        pQ1.size = sample3.size ∧ pQ1.capacity = sample3.capacity ∧
        pQ1.heap = sample3.heap ∧ pQueue_pop pQ1 = .ok (e, pQ2) :=
  ⟨by decide, by decide, rfl, peek_then_pop sample3 (by decide) (by decide)⟩

theorem peek_fault (pQ : pQueue α) (h0 : pQ.size ≠ 0) :
    pQueue_peek pQ ≠ .error .assertion := by
  rcases load_cases pQ.heap 1 with h | ⟨e, h⟩ <;> simp [pQueue_peek, pQueue_empty, h0, h]

/-- Claim C14: `pQueue_pop` and `pQueue_peek` stop with a failed assertion
exactly on the empty queues (`size == 0`), where they return no element; on
every non-empty queue state each of them returns an element. -/
theorem fails_iff_empty (pQ : pQueue α) :
    (pQueue_pop pQ = .error .assertion ↔ pQ.size = 0) ∧
      (pQueue_peek pQ = .error .assertion ↔ pQ.size = 0) ∧
      (pQ.size ≠ 0 → InStorage pQ →
        (∃ e pQ1, pQueue_pop pQ = .ok (e, pQ1)) ∧ ∃ e, pQueue_peek pQ = .ok e) := by
  refine ⟨⟨fun h => ?_, fun h => ?_⟩, ⟨fun h => ?_, fun h => ?_⟩, fun h0 hn => ?_⟩
  · by_contra h0
    rcases pop_total pQ h0 with hf | ⟨e, pQ1, hp⟩
    · rw [hf] at h; cases h
    · rw [hp] at h; cases h
  · simp [pQueue_pop, pQueue_empty, h]
  · by_contra h0
    exact peek_fault pQ h0 h
  · simp [pQueue_peek, pQueue_empty, h]
  · obtain ⟨e, pQ1, hpop, -⟩ := pop_spec pQ h0 hn
    have b1 : 1 < pQ.heap.length := by unfold InStorage at hn; omega
    exact ⟨⟨e, pQ1, hpop⟩, pQ.heap[1], by simp [pQueue_peek, pQueue_empty, h0, load_ok _ b1]⟩

theorem fails_iff_empty_witness :
    pQueue_pop empty2 = .error .assertion ∧ pQueue_peek empty2 = .error .assertion ∧
      sample3.size ≠ 0 ∧ InStorage sample3 ∧
      ((pQueue_pop sample3 = .error .assertion ↔ sample3.size = 0) ∧
        (pQueue_peek sample3 = .error .assertion ↔ sample3.size = 0) ∧
        (sample3.size ≠ 0 → InStorage sample3 →
          (∃ e pQ1, pQueue_pop sample3 = .ok (e, pQ1)) ∧ ∃ e, pQueue_peek sample3 = .ok e)) :=
  ⟨rfl, rfl, by decide, by decide, fails_iff_empty sample3⟩

/-! ### The values are opaque -/

theorem load_map {β : Type} (f : α → β) (h : List (pQueue_elem α)) (i : Nat) :
    load (h.map (mapElem f)) i = Except.map (mapElem f) (load h i) := by
  unfold load
  rw [List.getElem?_map]
  cases h[i]? <;> rfl

theorem store_map {β : Type} (f : α → β) (h : List (pQueue_elem α)) (i : Nat) (e : pQueue_elem α) :
    store (h.map (mapElem f)) i (mapElem f e) = Except.map (List.map (mapElem f)) (store h i e) := by
  unfold store
  rw [List.length_map]
  split
  · simp [Except.map, List.map_set]
  · rfl

theorem swap_map {β : Type} (f : α → β) (pQ : pQueue α) (i j : Nat) :
    swap (mapQueue f pQ) i j = Except.map (mapQueue f) (swap pQ i j) := by
  unfold swap
  show (match load (pQ.heap.map (mapElem f)) i with
    | Except.error e => Except.error e
    | Except.ok temp =>
      match load (pQ.heap.map (mapElem f)) j with
      | Except.error e => Except.error e
      | Except.ok x =>
        match store (pQ.heap.map (mapElem f)) i x with
        | Except.error e => Except.error e
        | Except.ok h1 =>
          match store h1 j temp with
          | Except.error e => Except.error e
          | Except.ok h2 => Except.ok { mapQueue f pQ with heap := h2 }) = _
  rw [load_map, load_map]
  cases h1 : load pQ.heap i with
  | error e => rfl
  | ok temp =>
    cases h2 : load pQ.heap j with
    | error e => rfl
    | ok x =>
      simp only [Except.map]
      rw [store_map]
      cases h3 : store pQ.heap i x with
      | error e => rfl
      | ok l1 =>
        simp only [Except.map]
        rw [store_map]
        cases h4 : store l1 j temp with
        | error e => rfl
        | ok l2 => rfl

theorem bubble_up_loop_map {β : Type} (f : α → β) (fuel : Nat) (pQ : pQueue α) (c p : Nat) :
    bubble_up_loop fuel (mapQueue f pQ) c p
      = Except.map (mapQueue f) (bubble_up_loop fuel pQ c p) := by
  induction fuel generalizing pQ c p with
  | zero => rfl
  | succ fuel ih =>
    rw [bubble_up_loop, bubble_up_loop]
    by_cases h0 : p ≠ 0
    · rw [if_pos h0, if_pos h0]
      show (match load (pQ.heap.map (mapElem f)) c with
        | Except.error e => Except.error e
        | Except.ok x =>
          match load (pQ.heap.map (mapElem f)) p with
          | Except.error e => Except.error e
          | Except.ok y =>
            if x.priority > y.priority then
              match swap (mapQueue f pQ) c p with
              | Except.error e => Except.error e
              | Except.ok pQ1 => bubble_up_loop fuel pQ1 p (p >>> 1)
            else Except.ok (mapQueue f pQ)) = _
      rw [load_map, load_map, swap_map]
      cases h1 : load pQ.heap c with
      | error e => rfl
      | ok x =>
        cases h2 : load pQ.heap p with
        | error e => rfl
        | ok y =>
          simp only [Except.map, mapElem]
          by_cases hgt : x.priority > y.priority
          · rw [if_pos hgt, if_pos hgt]
            cases h3 : swap pQ c p with
            | error e => rfl
            | ok pQ1 => exact ih pQ1 p (p >>> 1)
          · rw [if_neg hgt, if_neg hgt]
    · rw [if_neg h0, if_neg h0]
      rfl

theorem larger_left_map {β : Type} (f : α → β) (pQ : pQueue α) (q : Nat) :
    larger_left (mapQueue f pQ) q = larger_left pQ q := by
  unfold larger_left
  show (if q <<< 1 ≤ pQ.size then
      match load (pQ.heap.map (mapElem f)) q with
      | Except.error e => Except.error e
      | Except.ok p =>
        match load (pQ.heap.map (mapElem f)) (q <<< 1) with
        | Except.error e => Except.error e
        | Except.ok l => if p.priority < l.priority then Except.ok (q <<< 1) else Except.ok q
    else Except.ok q) = _
  rw [load_map, load_map]
  cases load pQ.heap q <;> cases load pQ.heap (q <<< 1) <;> rfl

theorem larger_right_map {β : Type} (f : α → β) (pQ : pQueue α) (q m : Nat) :
    larger_right (mapQueue f pQ) q m = larger_right pQ q m := by
  unfold larger_right
  show (if q <<< 1 + 1 ≤ pQ.size then
      match load (pQ.heap.map (mapElem f)) m with
      | Except.error e => Except.error e
      | Except.ok p =>
        match load (pQ.heap.map (mapElem f)) (q <<< 1 + 1) with
        | Except.error e => Except.error e
        | Except.ok r =>
          if p.priority < r.priority then Except.ok (q <<< 1 + 1) else Except.ok m
    else Except.ok m) = _
  rw [load_map, load_map]
  cases load pQ.heap m <;> cases load pQ.heap (q <<< 1 + 1) <;> rfl

theorem bubble_down_loop_map {β : Type} (f : α → β) (fuel : Nat) (pQ : pQueue α) (q : Nat) :
    bubble_down_loop fuel (mapQueue f pQ) q
      = Except.map (mapQueue f) (bubble_down_loop fuel pQ q) := by
  induction fuel generalizing pQ q with
  | zero => rfl
  | succ fuel ih =>
    rw [bubble_down_loop, bubble_down_loop, larger_left_map]
    cases h1 : larger_left pQ q with
    | error e => rfl
    | ok m1 =>
      simp only []
      rw [larger_right_map]
      cases h2 : larger_right pQ q m1 with
      | error e => rfl
      | ok m =>
        simp only []
        by_cases hm : m ≠ q
        · rw [if_pos hm, if_pos hm, swap_map]
          cases h3 : swap pQ m q with
          | error e => rfl
          | ok pQ1 =>
            simp only [Except.map]
            by_cases hc : q ≤ pQ1.size ∧ m ≠ q
            · have hc1 : q ≤ (mapQueue f pQ1).size ∧ m ≠ q := hc
              rw [if_pos hc, if_pos hc1]
              exact ih pQ1 m
            · have hc1 : ¬ (q ≤ (mapQueue f pQ1).size ∧ m ≠ q) := hc
              rw [if_neg hc, if_neg hc1]
        · rw [if_neg hm, if_neg hm]
          have hc : ¬ (q ≤ pQ.size ∧ m ≠ q) := fun h => hm h.2
          have hc1 : ¬ (q ≤ (mapQueue f pQ).size ∧ m ≠ q) := hc
          simp only [hc, hc1, if_false, Except.map]

theorem realloc_map {β : Type} [Inhabited α] (f : α → β) (h : List (pQueue_elem α)) (n : Nat) :
    @realloc β (imageInhabited f) (h.map (mapElem f)) n = (realloc h n).map (mapElem f) := by
  unfold realloc
  rw [List.map_append, List.map_take, List.map_replicate, List.length_map]
  rfl

theorem init_map {β : Type} [Inhabited α] (f : α → β) (w c : Nat) :
    @pQueue_init β (imageInhabited f) w c = mapQueue f (pQueue_init w c) := by
  unfold pQueue_init mapQueue
  rw [List.map_replicate]
  rfl

theorem grown_map {β : Type} [Inhabited α] (f : α → β) (w : Nat) (pQ : pQueue α) :
    @grown β (imageInhabited f) w (mapQueue f pQ) = mapQueue f (grown w pQ) := by
  unfold grown
  show (if pQ.size = pQ.capacity then @increase_capacity β (imageInhabited f) w (mapQueue f pQ)
    else mapQueue f pQ) = _
  split
  · unfold increase_capacity mapQueue
    simp only [realloc_map]
  · rfl

theorem push_map {β : Type} [Inhabited α] (f : α → β) (w : Nat) (pQ : pQueue α) (priority : Nat)
    (val : α) :
    @pQueue_push β (imageInhabited f) w (mapQueue f pQ) priority (f val)
      = Except.map (mapQueue f) (pQueue_push w pQ priority val) := by
  rw [@push_grown β (imageInhabited f), push_grown, grown_map]
  show (match store ((grown w pQ).heap.map (mapElem f)) ((grown w pQ).size + 1)
      (mapElem f ⟨priority, val⟩) with
    | Except.error e => Except.error e
    | Except.ok h =>
      match bubble_up { mapQueue f (grown w pQ) with heap := h } with
      | Except.error e => Except.error e
      | Except.ok pQ2 => Except.ok { pQ2 with size := pQ2.size + 1 }) = _
  rw [store_map]
  cases h1 : store (grown w pQ).heap ((grown w pQ).size + 1) ⟨priority, val⟩ with
  | error e => rfl
  | ok h =>
    simp only [Except.map]
    have hb : bubble_up ({ mapQueue f (grown w pQ) with heap := h.map (mapElem f) } : pQueue β)
        = Except.map (mapQueue f) (bubble_up { grown w pQ with heap := h }) :=
      bubble_up_loop_map f _ { grown w pQ with heap := h } _ _
    rw [hb]
    cases bubble_up { grown w pQ with heap := h } <;> rfl

theorem pop_map {β : Type} (f : α → β) (pQ : pQueue α) :
    pQueue_pop (mapQueue f pQ)
      = Except.map (fun r => (mapElem f r.1, mapQueue f r.2)) (pQueue_pop pQ) := by
  unfold pQueue_pop
  by_cases h0 : pQueue_empty pQ = true
  · have h1 : pQueue_empty (mapQueue f pQ) = true := h0
    rw [if_pos h0, if_pos h1]
    rfl
  · have h1 : ¬ (pQueue_empty (mapQueue f pQ) = true) := h0
    rw [if_neg h0, if_neg h1]
    show (match load (pQ.heap.map (mapElem f)) 1 with
      | Except.error e => Except.error e
      | Except.ok return_val =>
        match swap (mapQueue f pQ) 1 pQ.size with
        | Except.error e => Except.error e
        | Except.ok pQ1 =>
          match bubble_down { pQ1 with size := pQ1.size - 1 } with
          | Except.error e => Except.error e
          | Except.ok pQ2 => Except.ok (return_val, pQ2)) = _
    rw [load_map, swap_map]
    cases load pQ.heap 1 with
    | error e => rfl
    | ok return_val =>
      cases swap pQ 1 pQ.size with
      | error e => rfl
      | ok pQ1 =>
        simp only [Except.map]
        have hb : bubble_down ({ mapQueue f pQ1 with size := (mapQueue f pQ1).size - 1 } : pQueue β)
            = Except.map (mapQueue f) (bubble_down { pQ1 with size := pQ1.size - 1 }) :=
          bubble_down_loop_map f _ { pQ1 with size := pQ1.size - 1 } _
        rw [hb]
        cases bubble_down { pQ1 with size := pQ1.size - 1 } <;> rfl

theorem peek_map {β : Type} (f : α → β) (pQ : pQueue α) :
    pQueue_peek (mapQueue f pQ) = Except.map (mapElem f) (pQueue_peek pQ) := by
  unfold pQueue_peek
  by_cases h0 : pQueue_empty pQ = true
  · have h1 : pQueue_empty (mapQueue f pQ) = true := h0
    rw [if_pos h0, if_pos h1]
    rfl
  · have h1 : ¬ (pQueue_empty (mapQueue f pQ) = true) := h0
    rw [if_neg h0, if_neg h1]
    exact load_map f pQ.heap 1

theorem runPops_map {β : Type} [Inhabited α] (f : α → β) (w : Nat) (ops : List (Op α)) (pQ : pQueue α) :
    @runPops β (imageInhabited f) w (mapQueue f pQ) (ops.map (mapOp f))
      = Except.map (fun r => (r.1.map (mapElem f), mapQueue f r.2)) (runPops w pQ ops) := by
  induction ops generalizing pQ with
  | nil => rfl
  | cons op ops ih =>
    cases op with
    | push priority val =>
      simp only [List.map_cons, mapOp, runPops]
      rw [push_map]
      cases pQueue_push w pQ priority val with
      | error e => rfl
      | ok pQ1 => exact ih pQ1
    | pop =>
      simp only [List.map_cons, mapOp, runPops]
      rw [pop_map]
      cases pQueue_pop pQ with
      | error e => rfl
      | ok r =>
        obtain ⟨e, pQ1⟩ := r
        simp only [Except.map]
        rw [ih pQ1]
        cases runPops w pQ1 ops with
        | error e => rfl
        | ok r2 => rfl

/-- Claim C15: the queue does not look at the values.  For every function `f`
on values, running a sequence of pushes and pops with every pushed value `v`
replaced by `f v`, on a queue whose stored values are replaced likewise, stops
with the same fault or returns the same queue and the same popped elements with
`f` applied to their values: sizes, capacities and the priority of every slot
and of every returned element are the same.  The same holds for
`pQueue_init`, for one push, one pop and one peek. -/
theorem oblivious_to_values {β : Type} [Inhabited α] (f : α → β) (w : Nat) (ops : List (Op α))
    (pQ : pQueue α) :
    @runPops β (imageInhabited f) w (mapQueue f pQ) (ops.map (mapOp f))
        = Except.map (fun r => (r.1.map (mapElem f), mapQueue f r.2)) (runPops w pQ ops) ∧
      (∀ c, @pQueue_init β (imageInhabited f) w c = mapQueue f (pQueue_init w c)) ∧
      (∀ priority val, @pQueue_push β (imageInhabited f) w (mapQueue f pQ) priority (f val)
        = Except.map (mapQueue f) (pQueue_push w pQ priority val)) ∧
      pQueue_pop (mapQueue f pQ)
        = Except.map (fun r => (mapElem f r.1, mapQueue f r.2)) (pQueue_pop pQ) ∧
      pQueue_peek (mapQueue f pQ) = Except.map (mapElem f) (pQueue_peek pQ) ∧
      (mapQueue f pQ).size = pQ.size ∧ (mapQueue f pQ).capacity = pQ.capacity ∧
      ∀ i, prioAt (mapQueue f pQ).heap i = prioAt pQ.heap i :=
  ⟨runPops_map f w ops pQ, init_map f w, push_map f w pQ, pop_map f pQ, peek_map f pQ, rfl, rfl,
    fun i => by
      show prioAt (pQ.heap.map (mapElem f)) i = _
      unfold prioAt
      rw [List.getElem?_map]
      cases pQ.heap[i]? <;> rfl⟩

/-! ### Queues reached from an initial capacity of at least 2 -/

theorem sizeof_elem_ge (w : Nat) (hw : 8 ≤ w) : 2 ≤ sizeof_elem w := by
  unfold sizeof_elem
  omega

theorem init_length [Inhabited α] (w c : Nat) (hs : 0 < sizeof_elem w)
    (hinit : sizeof_elem w * (c + 1) < 2 ^ w) :
    (pQueue_init w c : pQueue α).heap.length = c + 1 := by
  have hle : c + 1 ≤ sizeof_elem w * (c + 1) := Nat.le_mul_of_pos_left _ hs
  have hlt : c + 1 < 2 ^ w := by omega
  simp only [pQueue_init, List.length_replicate, Nat.mod_eq_of_lt hlt]
  exact alloc_slots_fits w _ hs hinit

theorem grown_sound [Inhabited α] (w : Nat) (pQ : pQueue α) (hs : Sound pQ)
    (hw : 8 ≤ w) (hbytes : sizeof_elem w * (pQ.capacity * 3 / 2 + 1) < 2 ^ w) :
    (grown w pQ).size + 1 ≤ (grown w pQ).capacity ∧
      (grown w pQ).heap.length = (grown w pQ).capacity + 1 ∧ 2 ≤ (grown w pQ).capacity := by
  obtain ⟨h1, h2, h3⟩ := hs
  have hse := sizeof_elem_ge w hw
  have hfit := bytes_fit_product w pQ.capacity hse hbytes
  unfold grown
  split
  · obtain ⟨hc, hsz⟩ := increase_capacity_fits w pQ hfit
    have hl := increase_capacity_length w pQ (by omega) hfit hbytes
    rw [hc, hl, hsz]
    omega
  · omega

theorem push_sound [Inhabited α] (w : Nat) (pQ : pQueue α) (priority : Nat) (val : α)
    (hs : Sound pQ) (hw : 8 ≤ w)
    (hbytes : sizeof_elem w * (pQ.capacity * 3 / 2 + 1) < 2 ^ w) :
    ∃ pQ1, pQueue_push w pQ priority val = .ok pQ1 ∧ Sound pQ1 := by
  obtain ⟨g1, g2, g3⟩ := grown_sound w pQ hs hw hbytes
  obtain ⟨pQ1, hpush, hsz, hcap, hl, -⟩ := push_spec w pQ priority val (by omega)
  refine ⟨pQ1, hpush, ?_, ?_, ?_⟩
  · rw [hsz, hcap, ← grown_size w pQ]; exact g1
  · rw [hl, hcap]; exact g2
  · rw [hcap]; exact g3

theorem pop_sound (pQ : pQueue α) (hs : Sound pQ) (h0 : pQ.size ≠ 0) :
    ∃ e pQ1, pQueue_pop pQ = .ok (e, pQ1) ∧ pQ.heap[1]? = some e ∧ Sound pQ1 := by
  obtain ⟨h1, h2, h3⟩ := hs
  obtain ⟨e, pQ1, hpop, he, hsz, hcap, hl, -⟩ :=
    pop_spec pQ h0 (by unfold InStorage; omega)
  exact ⟨e, pQ1, hpop, he, by rw [hsz, hcap]; omega, by rw [hl, hcap]; exact h2,
    by rw [hcap]; exact h3⟩

theorem reachable_sound [Inhabited α] (w c : Nat) (hc : 2 ≤ c) (hw : 8 ≤ w)
    (hinit : sizeof_elem w * (c + 1) < 2 ^ w) (pQ : pQueue α)
    (hr : Reachable w c pQ) : Sound pQ := by
  have hse := sizeof_elem_ge w hw
  induction hr with
  | init => exact ⟨Nat.zero_le _, init_length w c (by omega) hinit, hc⟩
  | push priority val _ hfit hpush ih =>
    obtain ⟨pQ2, hpush2, hs2⟩ := push_sound w _ priority val ih hw hfit
    rw [hpush] at hpush2
    cases hpush2
    exact hs2
  | pop _ hpop ih =>
    obtain ⟨e2, pQ2, hpop2, -, hs2⟩ := pop_sound _ ih (pop_size _ _ _ hpop).1
    rw [hpop] at hpop2
    cases hpop2
    exact hs2

theorem exch_slot0 (h : List (pQueue_elem α)) {i j : Nat} (hi : i < h.length)
    (hj : j < h.length) (hi0 : i ≠ 0) (hj0 : j ≠ 0) : (exch h i j)[0]? = h[0]? := by
  rw [getElem?_exch h hi hj, if_neg (Ne.symm hj0), if_neg (Ne.symm hi0)]

theorem bubble_up_loop_slot0 (fuel : Nat) (pQ pQ1 : pQueue α) (c : Nat) (hc1 : 1 ≤ c)
    (hb : c < pQ.heap.length)
    (hrun : bubble_up_loop fuel pQ c (c >>> 1) = .ok pQ1) :
    pQ1.heap[0]? = pQ.heap[0]? := by
  induction fuel generalizing pQ c with
  | zero => simp [bubble_up_loop] at hrun
  | succ fuel ih =>
    have hp : c / 2 < pQ.heap.length := by omega
    rw [Nat.shiftRight_one] at hrun
    by_cases h0 : c / 2 = 0
    · simp [bubble_up_loop, h0] at hrun
      rw [hrun]
    · by_cases hgt : pQ.heap[c].priority > pQ.heap[c / 2].priority
      · simp only [bubble_up_loop, ne_eq, h0, not_false_eq_true, if_true, load_ok _ hb,
          load_ok _ hp, hgt, swap_ok _ hb hp] at hrun
        have hlen : (exch pQ.heap c (c / 2)).length = pQ.heap.length := length_exch _ _ _
        have := ih { pQ with heap := exch pQ.heap c (c / 2) } (c / 2) (by omega)
          (by show c / 2 < (exch pQ.heap c (c / 2)).length; omega) hrun
        rw [this]
        exact exch_slot0 _ hb hp (by omega) h0
      · simp [bubble_up_loop, h0, load_ok _ hb, load_ok _ hp, hgt] at hrun
        rw [hrun]

theorem bubble_down_loop_slot0 (fuel : Nat) (pQ pQ1 : pQueue α) (q : Nat) (hq : 1 ≤ q)
    (hn : pQ.size < pQ.heap.length) (hrun : bubble_down_loop fuel pQ q = .ok pQ1) :
    pQ1.heap[0]? = pQ.heap[0]? := by
  induction fuel generalizing pQ q with
  | zero => simp [bubble_down_loop] at hrun
  | succ fuel ih =>
    obtain ⟨m1, m, e1, e2, hm⟩ := larger_spec pQ q hq hn
    rcases hm with ⟨rfl, -⟩ | ⟨hne, hpar, hmn, -, -⟩
    · simp [bubble_down_loop, e1, e2] at hrun
      rw [hrun]
    · have bm : m < pQ.heap.length := by omega
      have bq : q < pQ.heap.length := by omega
      have hqs : q ≤ pQ.size := by omega
      simp only [bubble_down_loop, e1, e2, ne_eq, hne, not_false_eq_true, if_true,
        swap_ok _ bm bq, hqs, and_self] at hrun
      have hlen : (exch pQ.heap m q).length = pQ.heap.length := length_exch _ _ _
      have := ih { pQ with heap := exch pQ.heap m q } m (by omega)
        (by show pQ.size < (exch pQ.heap m q).length; omega) hrun
      rw [this]
      exact exch_slot0 _ bm bq (by omega) (by omega)

theorem pop_slot0 (pQ pQ1 : pQueue α) (e : pQueue_elem α)
    (h : pQueue_pop pQ = .ok (e, pQ1)) (hn : InStorage pQ) :
    pQ1.heap[0]? = pQ.heap[0]? := by
  unfold InStorage at hn
  have h0 := (pop_size pQ pQ1 e h).1
  have b1 : 1 < pQ.heap.length := by omega
  simp only [pQueue_pop, pQueue_empty, beq_iff_eq, h0, if_false, load_ok _ b1,
    swap_ok _ b1 hn, bubble_down] at h
  have hlen : (exch pQ.heap 1 pQ.size).length = pQ.heap.length := length_exch _ _ _
  cases hd : bubble_down_loop (pQ.size - 1 + 1)
      { size := pQ.size - 1, capacity := pQ.capacity, heap := exch pQ.heap 1 pQ.size } 1 with
  | error f => rw [hd] at h; cases h
  | ok pQ2 =>
    rw [hd] at h
    cases h
    rw [bubble_down_loop_slot0 _ _ _ 1 (Nat.le_refl 1)
      (by show pQ.size - 1 < (exch pQ.heap 1 pQ.size).length; omega) hd]
    exact exch_slot0 _ b1 hn (by omega) h0

theorem push_slot0 [Inhabited α] (w : Nat) (pQ pQ1 : pQueue α) (priority : Nat) (val : α)
    (h : pQueue_push w pQ priority val = .ok pQ1) (hn : InStorage pQ)
    (hroom : (grown w pQ).size + 1 < (grown w pQ).heap.length) :
    pQ1.heap[0]? = pQ.heap[0]? := by
  have hs := pushed_size w pQ priority val
  have hl := pushed_length w pQ priority val
  have hgs := grown_size w pQ
  obtain ⟨pQ2, hrun⟩ := bubble_up_pushed w pQ priority val hroom
  rw [push_of_bubble_up w pQ pQ2 priority val hroom hrun] at h
  cases h
  show pQ2.heap[0]? = _
  rw [bubble_up_loop_slot0 _ _ _ _ (by omega) (by omega) hrun,
    pushed_old w pQ priority val hn hroom (Nat.zero_le _)]

/-! ### The slot 0 is neither read nor written -/

theorem load_set0 (x : pQueue_elem α) (h : List (pQueue_elem α)) {i : Nat} (hi : i ≠ 0) :
    load (h.set 0 x) i = load h i := by
  unfold load
  rw [List.getElem?_set_ne (Ne.symm hi)]

theorem store_set0 (x : pQueue_elem α) (h : List (pQueue_elem α)) {i : Nat} (hi : i ≠ 0)
    (e : pQueue_elem α) :
    store (h.set 0 x) i e = Except.map (fun l => l.set 0 x) (store h i e) := by
  unfold store
  rw [List.length_set]
  split
  · simp only [Except.map]
    rw [List.set_comm _ _ _ (Ne.symm hi)]
  · rfl

theorem swap_set0 (x : pQueue_elem α) (pQ : pQueue α) {i j : Nat} (hi : i ≠ 0) (hj : j ≠ 0) :
    swap (setSlot0 x pQ) i j = Except.map (setSlot0 x) (swap pQ i j) := by
  unfold swap
  show (match load (pQ.heap.set 0 x) i with
    | Except.error e => Except.error e
    | Except.ok temp =>
      match load (pQ.heap.set 0 x) j with
      | Except.error e => Except.error e
      | Except.ok y =>
        match store (pQ.heap.set 0 x) i y with
        | Except.error e => Except.error e
        | Except.ok h1 =>
          match store h1 j temp with
          | Except.error e => Except.error e
          | Except.ok h2 => Except.ok { setSlot0 x pQ with heap := h2 }) = _
  rw [load_set0 x _ hi, load_set0 x _ hj]
  cases h1 : load pQ.heap i with
  | error e => rfl
  | ok temp =>
    cases h2 : load pQ.heap j with
    | error e => rfl
    | ok y =>
      simp only []
      rw [store_set0 x _ hi]
      cases h3 : store pQ.heap i y with
      | error e => rfl
      | ok l1 =>
        simp only [Except.map]
        rw [store_set0 x _ hj]
        cases h4 : store l1 j temp with
        | error e => rfl
        | ok l2 => rfl

theorem bubble_up_loop_set0 (x : pQueue_elem α) (fuel : Nat) (pQ : pQueue α) (c p : Nat)
    (hc : c ≠ 0) :
    bubble_up_loop fuel (setSlot0 x pQ) c p
      = Except.map (setSlot0 x) (bubble_up_loop fuel pQ c p) := by
  induction fuel generalizing pQ c p with
  | zero => rfl
  | succ fuel ih =>
    rw [bubble_up_loop, bubble_up_loop]
    by_cases h0 : p ≠ 0
    · rw [if_pos h0, if_pos h0]
      show (match load (pQ.heap.set 0 x) c with
        | Except.error e => Except.error e
        | Except.ok a =>
          match load (pQ.heap.set 0 x) p with
          | Except.error e => Except.error e
          | Except.ok b =>
            if a.priority > b.priority then
              match swap (setSlot0 x pQ) c p with
              | Except.error e => Except.error e
              | Except.ok pQ1 => bubble_up_loop fuel pQ1 p (p >>> 1)
            else Except.ok (setSlot0 x pQ)) = _
      rw [load_set0 x _ hc, load_set0 x _ h0, swap_set0 x pQ hc h0]
      cases h1 : load pQ.heap c with
      | error e => rfl
      | ok a =>
        cases h2 : load pQ.heap p with
        | error e => rfl
        | ok b =>
          simp only []
          by_cases hgt : a.priority > b.priority
          · rw [if_pos hgt, if_pos hgt]
            cases h3 : swap pQ c p with
            | error e => rfl
            | ok pQ1 => exact ih pQ1 p (p >>> 1) h0
          · rw [if_neg hgt, if_neg hgt]
            rfl
    · rw [if_neg h0, if_neg h0]
      rfl

theorem larger_left_set0 (x : pQueue_elem α) (pQ : pQueue α) {q : Nat} (hq : q ≠ 0) :
    larger_left (setSlot0 x pQ) q = larger_left pQ q := by
  have hsl : q <<< 1 ≠ 0 := by rw [Nat.shiftLeft_eq]; omega
  unfold larger_left
  show (if q <<< 1 ≤ pQ.size then
      match load (pQ.heap.set 0 x) q with
      | Except.error e => Except.error e
      | Except.ok p =>
        match load (pQ.heap.set 0 x) (q <<< 1) with
        | Except.error e => Except.error e
        | Except.ok l => if p.priority < l.priority then Except.ok (q <<< 1) else Except.ok q
    else Except.ok q) = _
  rw [load_set0 x _ hq, load_set0 x _ hsl]

theorem larger_right_set0 (x : pQueue_elem α) (pQ : pQueue α) (q : Nat) {m : Nat}
    (hm : m ≠ 0) : larger_right (setSlot0 x pQ) q m = larger_right pQ q m := by
  unfold larger_right
  show (if q <<< 1 + 1 ≤ pQ.size then
      match load (pQ.heap.set 0 x) m with
      | Except.error e => Except.error e
      | Except.ok p =>
        match load (pQ.heap.set 0 x) (q <<< 1 + 1) with
        | Except.error e => Except.error e
        | Except.ok r =>
          if p.priority < r.priority then Except.ok (q <<< 1 + 1) else Except.ok m
    else Except.ok m) = _
  rw [load_set0 x _ hm, load_set0 x _ (Nat.succ_ne_zero _)]

theorem bubble_down_loop_set0 (x : pQueue_elem α) (fuel : Nat) (pQ : pQueue α) (q : Nat)
    (hq : q ≠ 0) :
    bubble_down_loop fuel (setSlot0 x pQ) q
      = Except.map (setSlot0 x) (bubble_down_loop fuel pQ q) := by
  induction fuel generalizing pQ q with
  | zero => rfl
  | succ fuel ih =>
    rw [bubble_down_loop, bubble_down_loop, larger_left_set0 x pQ hq]
    cases h1 : larger_left pQ q with
    | error e => rfl
    | ok m1 =>
      have hm1 : m1 ≠ 0 := by
        rcases larger_left_cases pQ q with h | ⟨m, h, hm⟩
        · rw [h1] at h; cases h
        · rw [h1] at h; cases h; omega
      simp only []
      rw [larger_right_set0 x pQ q hm1]
      cases h2 : larger_right pQ q m1 with
      | error e => rfl
      | ok m =>
        have hm : m ≠ 0 := by
          rcases larger_right_cases pQ q m1 with h | ⟨m', h, hm'⟩
          · rw [h2] at h; cases h
          · rw [h2] at h; cases h; omega
        simp only []
        by_cases hmq : m ≠ q
        · rw [if_pos hmq, if_pos hmq, swap_set0 x pQ hm hq]
          cases h3 : swap pQ m q with
          | error e => rfl
          | ok pQ1 =>
            simp only [Except.map]
            by_cases hc : q ≤ pQ1.size ∧ m ≠ q
            · have hc1 : q ≤ (setSlot0 x pQ1).size ∧ m ≠ q := hc
              rw [if_pos hc, if_pos hc1]
              exact ih pQ1 m hm
            · have hc1 : ¬ (q ≤ (setSlot0 x pQ1).size ∧ m ≠ q) := hc
              rw [if_neg hc, if_neg hc1]
        · rw [if_neg hmq, if_neg hmq]
          have hc : ¬ (q ≤ pQ.size ∧ m ≠ q) := fun h => hmq h.2
          have hc1 : ¬ (q ≤ (setSlot0 x pQ).size ∧ m ≠ q) := hc
          simp only [hc, hc1, if_false, Except.map]


theorem realloc_set0 [Inhabited α] (x : pQueue_elem α) (h : List (pQueue_elem α)) (n : Nat)
    (hl : 0 < h.length) :
    realloc (h.set 0 x) n = (realloc h n).set 0 x := by
  unfold realloc
  cases n with
  | zero => simp
  | succ n =>
    rw [List.set_take, List.length_set, List.set_append_left _ _ (by simp; omega)]

theorem grown_set0 [Inhabited α] (x : pQueue_elem α) (w : Nat) (pQ : pQueue α)
    (hl : 0 < pQ.heap.length) : grown w (setSlot0 x pQ) = setSlot0 x (grown w pQ) := by
  unfold grown
  show (if pQ.size = pQ.capacity then increase_capacity w (setSlot0 x pQ) else setSlot0 x pQ) = _
  split
  · unfold increase_capacity setSlot0
    simp only [realloc_set0 x pQ.heap _ hl]
  · rfl

theorem push_set0 [Inhabited α] (x : pQueue_elem α) (w : Nat) (pQ : pQueue α)
    (priority : Nat) (val : α) (hl : 0 < pQ.heap.length) :
    pQueue_push w (setSlot0 x pQ) priority val
      = Except.map (setSlot0 x) (pQueue_push w pQ priority val) := by
  rw [push_grown, push_grown, grown_set0 x w pQ hl]
  show (match store ((grown w pQ).heap.set 0 x) ((grown w pQ).size + 1) ⟨priority, val⟩ with
    | Except.error e => Except.error e
    | Except.ok h =>
      match bubble_up { setSlot0 x (grown w pQ) with heap := h } with
      | Except.error e => Except.error e
      | Except.ok pQ2 => Except.ok { pQ2 with size := pQ2.size + 1 }) = _
  rw [store_set0 x _ (Nat.succ_ne_zero _)]
  cases h1 : store (grown w pQ).heap ((grown w pQ).size + 1) ⟨priority, val⟩ with
  | error e => rfl
  | ok h =>
    simp only [Except.map]
    have hb : bubble_up ({ setSlot0 x (grown w pQ) with heap := h.set 0 x } : pQueue α)
        = Except.map (setSlot0 x) (bubble_up { grown w pQ with heap := h }) :=
      bubble_up_loop_set0 x _ { grown w pQ with heap := h } _ _ (Nat.succ_ne_zero _)
    rw [hb]
    cases bubble_up { grown w pQ with heap := h } <;> rfl

theorem pop_set0 (x : pQueue_elem α) (pQ : pQueue α) :
    pQueue_pop (setSlot0 x pQ)
      = Except.map (fun r => (r.1, setSlot0 x r.2)) (pQueue_pop pQ) := by
  unfold pQueue_pop
  by_cases h0 : pQueue_empty pQ = true
  · have h1 : pQueue_empty (setSlot0 x pQ) = true := h0
    rw [if_pos h0, if_pos h1]
    rfl
  · have h1 : ¬ (pQueue_empty (setSlot0 x pQ) = true) := h0
    have hs : pQ.size ≠ 0 := by simpa [pQueue_empty] using h0
    rw [if_neg h0, if_neg h1]
    show (match load (pQ.heap.set 0 x) 1 with
      | Except.error e => Except.error e
      | Except.ok return_val =>
        match swap (setSlot0 x pQ) 1 pQ.size with
        | Except.error e => Except.error e
        | Except.ok pQ1 =>
          match bubble_down { pQ1 with size := pQ1.size - 1 } with
          | Except.error e => Except.error e
          | Except.ok pQ2 => Except.ok (return_val, pQ2)) = _
    rw [load_set0 x _ Nat.one_ne_zero, swap_set0 x pQ Nat.one_ne_zero hs]
    cases load pQ.heap 1 with
    | error e => rfl
    | ok return_val =>
      cases swap pQ 1 pQ.size with
      | error e => rfl
      | ok pQ1 =>
        simp only [Except.map]
        have hb : bubble_down ({ setSlot0 x pQ1 with size := (setSlot0 x pQ1).size - 1 } : pQueue α)
            = Except.map (setSlot0 x) (bubble_down { pQ1 with size := pQ1.size - 1 }) :=
          bubble_down_loop_set0 x _ { pQ1 with size := pQ1.size - 1 } 1 Nat.one_ne_zero
        rw [hb]
        cases bubble_down { pQ1 with size := pQ1.size - 1 } <;> rfl

theorem peek_set0 (x : pQueue_elem α) (pQ : pQueue α) :
    pQueue_peek (setSlot0 x pQ) = pQueue_peek pQ := by
  unfold pQueue_peek
  by_cases h0 : pQueue_empty pQ = true
  · have h1 : pQueue_empty (setSlot0 x pQ) = true := h0
    rw [if_pos h0, if_pos h1]
  · have h1 : ¬ (pQueue_empty (setSlot0 x pQ) = true) := h0
    rw [if_neg h0, if_neg h1]
    exact load_set0 x pQ.heap Nat.one_ne_zero

theorem reachable_slot0 [Inhabited α] (w c : Nat) (hc : 2 ≤ c) (hw : 8 ≤ w)
    (hinit : sizeof_elem w * (c + 1) < 2 ^ w) (pQ : pQueue α)
    (hr : Reachable w c pQ) : pQ.heap[0]? = some default := by
  have hse := sizeof_elem_ge w hw
  induction hr with
  | init =>
    have hl : ((pQueue_init w c : pQueue α)).heap.length = c + 1 :=
      init_length w c (by omega) hinit
    have h0 : 0 < alloc_slots w ((c + 1) % 2 ^ w) := by
      simp only [pQueue_init, List.length_replicate] at hl
      omega
    simp [pQueue_init, h0]
  | push priority val hprev hfit hpush ih =>
    have hs := reachable_sound w c hc hw hinit _ hprev
    obtain ⟨g1, g2, -⟩ := grown_sound w _ hs hw hfit
    rw [push_slot0 w _ _ priority val hpush (by unfold InStorage; have := hs.1; have := hs.2.1; omega)
      (by omega)]
    exact ih
  | pop hprev hpop ih =>
    have hs := reachable_sound w c hc hw hinit _ hprev
    rw [pop_slot0 _ _ _ hpop (by unfold InStorage; have := hs.1; have := hs.2.1; omega)]
    exact ih

/-- Claim C17 as stated fails at the initial capacity `2 ^ 60` with a `size_t`
of 64 bits: the tripled capacity fits, but the request of `pQueue_init`,
`16 * (2 ^ 60 + 1)` bytes, wraps to 16 bytes, one slot.  The initial queue has
a storage of one slot, not of `capacity + 1`, and the first push stores to the
slot 1, outside the storage. -/
theorem reachable_storage_wraps :
    2 ≤ 2 ^ 60 ∧ 2 ^ 60 * 3 < 2 ^ 64 ∧
      Reachable 64 (2 ^ 60) (pQueue_init 64 (2 ^ 60) : pQueue Nat) ∧
      (pQueue_init 64 (2 ^ 60) : pQueue Nat).size
        ≤ (pQueue_init 64 (2 ^ 60) : pQueue Nat).capacity ∧
      (pQueue_init 64 (2 ^ 60) : pQueue Nat).heap.length = 1 ∧
      ¬ ((pQueue_init 64 (2 ^ 60) : pQueue Nat).heap.length
        = (pQueue_init 64 (2 ^ 60) : pQueue Nat).capacity + 1) ∧
      pQueue_push 64 (pQueue_init 64 (2 ^ 60) : pQueue Nat) 5 7 = .error .outOfBounds :=
  ⟨by decide, by decide, Reachable.init, by decide, by decide, by decide, rfl⟩

/-- Claim C17, amended: for an initial capacity `c >= 2` and a `size_t` of at
least 8 bits, with capacities small enough that the byte counts of the
allocation requests, `sizeof (struct pQueue_elem) * (c + 1)` in `pQueue_init`
and `sizeof (struct pQueue_elem) * (capacity * 3 / 2 + 1)` in the growth step,
fit in `size_t`, every queue reached from `pQueue_init w c` by pushes and pops
satisfies `size <= capacity` and has a storage of `capacity + 1` slots, and on
it no call leaves the slots `1 .. capacity`: a push returns whenever its growth
request fits, and on a non-empty queue `pQueue_pop` and `pQueue_peek` return,
so no access is above the storage; the slot 0 still holds what `pQueue_init`
left in it, and replacing its content by any `x` changes nothing in the result
of a call but that slot, so no access is to the slot 0. -/
theorem reachable_in_bounds [Inhabited α] (w c : Nat) (hc : 2 ≤ c) (hw : 8 ≤ w)
    (hinit : sizeof_elem w * (c + 1) < 2 ^ w) (pQ : pQueue α)
    (hr : Reachable w c pQ) :
    pQ.size ≤ pQ.capacity ∧ pQ.heap.length = pQ.capacity + 1 ∧
      (sizeof_elem w * (pQ.capacity * 3 / 2 + 1) < 2 ^ w →
        ∀ priority val, ∃ pQ1, pQueue_push w pQ priority val = .ok pQ1) ∧
      (pQ.size ≠ 0 →
        (∃ e pQ1, pQueue_pop pQ = .ok (e, pQ1)) ∧ ∃ e, pQueue_peek pQ = .ok e) ∧
      pQ.heap[0]? = some default ∧
      (∀ x priority val, pQueue_push w (setSlot0 x pQ) priority val
        = Except.map (setSlot0 x) (pQueue_push w pQ priority val)) ∧
      (∀ x, pQueue_pop (setSlot0 x pQ)
        = Except.map (fun r => (r.1, setSlot0 x r.2)) (pQueue_pop pQ)) ∧
      (∀ x, pQueue_peek (setSlot0 x pQ) = pQueue_peek pQ) := by
  have hs := reachable_sound w c hc hw hinit pQ hr
  refine ⟨hs.1, hs.2.1, fun hfit priority val => ?_, fun h0 => ?_,
    reachable_slot0 w c hc hw hinit pQ hr,
    fun x priority val => push_set0 x w pQ priority val (by rw [hs.2.1]; omega),
    fun x => pop_set0 x pQ, fun x => peek_set0 x pQ⟩
  · obtain ⟨pQ1, hpush, -⟩ := push_sound w pQ priority val hs hw hfit
    exact ⟨pQ1, hpush⟩
  · obtain ⟨e, pQ1, hpop, he, -⟩ := pop_sound pQ hs h0
    refine ⟨⟨e, pQ1, hpop⟩, e, ?_⟩
    simp [pQueue_peek, pQueue_empty, h0, load, he]

theorem reachable_in_bounds_witness :
    (2 : Nat) ≤ 2 ∧ (8 : Nat) ≤ 64 ∧ sizeof_elem 64 * (2 + 1) < 2 ^ 64 ∧
      Reachable 64 2 full2 ∧
      (full2.size ≤ full2.capacity ∧ full2.heap.length = full2.capacity + 1 ∧
        (sizeof_elem 64 * (full2.capacity * 3 / 2 + 1) < 2 ^ 64 →
          ∀ priority val, ∃ pQ1, pQueue_push 64 full2 priority val = .ok pQ1) ∧
        (full2.size ≠ 0 →
          (∃ e pQ1, pQueue_pop full2 = .ok (e, pQ1)) ∧ ∃ e, pQueue_peek full2 = .ok e) ∧
        full2.heap[0]? = some default ∧
        (∀ x priority val, pQueue_push 64 (setSlot0 x full2) priority val
          = Except.map (setSlot0 x) (pQueue_push 64 full2 priority val)) ∧
        (∀ x, pQueue_pop (setSlot0 x full2)
          = Except.map (fun r => (r.1, setSlot0 x r.2)) (pQueue_pop full2)) ∧
        (∀ x, pQueue_peek (setSlot0 x full2) = pQueue_peek full2)) :=
  have hr : Reachable 64 2 full2 :=
    Reachable.push 1 2 (Reachable.push 5 1 Reachable.init (by decide) rfl) (by decide) rfl
  ⟨Nat.le_refl 2, by decide, by decide, hr,
    reachable_in_bounds 64 2 (Nat.le_refl 2) (by decide) (by decide) full2 hr⟩

end PQueue
